import Mathlib

/-!
Verification of the open-repoprompt core (package `fileutils`, `prompt`) against its
natural-language specification.

Strings are modelled as lists of characters (`Str`).  The Go code indexes strings by
byte; on the ASCII alphabet used by ignore patterns and paths the byte-level and
character-level views coincide, and for the literal-matching operations considered
here the two views agree on all inputs.
-/

namespace RepoPrompt

/-- Character-list model of Go strings. -/
abbrev Str := List Char

/-- Convert a Lean string literal to the character-list model. -/
def strOf (s : String) : Str := s.data

/-- Go `strings.Contains`: `needle` occurs as a contiguous substring. -/
def hasInfix (needle : Str) : Str → Bool
  | [] => needle.isPrefixOf []
  | l@(_ :: rest) => needle.isPrefixOf l || hasInfix needle rest

/-- Go `strings.TrimSuffix`: drop `suffix` from the end of `l` when present. -/
def trimSuffix (l suffix : Str) : Str :=
  if suffix.isSuffixOf l then l.take (l.length - suffix.length) else l

/-- Go `filepath.Base` for slash-separated paths: empty path gives ".", trailing
slashes are dropped, a path of only slashes gives "/", otherwise the part after
the last slash. -/
def goBase (p : Str) : Str :=
  if p = [] then ['.']
  else
    let q := (p.reverse.dropWhile (fun c => c == '/')).reverse
    if q = [] then ['/']
    else (q.reverse.takeWhile (fun c => c != '/')).reverse

/-- Go `path/filepath` `scanChunk` body: scan up to the next top-level star,
tracking bracket ranges and backslash escapes. Returns the chunk and the rest. -/
def scanBody : Str → Bool → Str × Str
  | [], _ => ([], [])
  | c :: rest, inrange =>
    if c = '\\' then
      match rest with
      | [] => (['\\'], [])
      | c2 :: rest' =>
        let (ch, r) := scanBody rest' inrange
        ('\\' :: c2 :: ch, r)
    else if c = '[' then
      let (ch, r) := scanBody rest true
      ('[' :: ch, r)
    else if c = ']' then
      let (ch, r) := scanBody rest false
      (']' :: ch, r)
    else if c = '*' then
      if inrange then
        let (ch, r) := scanBody rest inrange
        ('*' :: ch, r)
      else ([], '*' :: rest)
    else
      let (ch, r) := scanBody rest inrange
      (c :: ch, r)

/-- Go `scanChunk`: consume leading stars, then scan one chunk. -/
def scanChunk (pattern : Str) : Bool × Str × Str :=
  let star := pattern.head? == some '*'
  let p1 := pattern.dropWhile (fun c => c == '*')
  let (chunk, rest) := scanBody p1 false
  (star, chunk, rest)

/-- Go `getEsc`: read one (possibly escaped) character of a bracket range.
`Except.error` models `ErrBadPattern`. -/
def getEsc (chunk : Str) : Except Unit (Char × Str) :=
  match chunk with
  | [] => .error ()
  | c :: rest =>
    if c = '-' ∨ c = ']' then .error ()
    else if c = '\\' then
      match rest with
      | [] => .error ()
      | r :: rest' => if rest' = [] then .error () else .ok (r, rest')
    else
      if rest = [] then .error () else .ok (c, rest)

/-- Go `matchChunk` bracket-range loop: parse ranges until the closing bracket,
accumulating whether `r` fell in some range.  Each iteration consumes at least
one character, so fuel `chunk.length + 1` is never exhausted. -/
def parseRanges : Nat → Char → Nat → Bool → Str → Except Unit (Bool × Str)
  | 0, _, _, _, _ => .error ()
  | fuel + 1, r, nrange, mtch, chunk =>
    match chunk, nrange with
    | ']' :: rest, _ + 1 => .ok (mtch, rest)
    | chunk, _ =>
      match getEsc chunk with
      | .error _ => .error ()
      | .ok (lo, chunk1) =>
        match chunk1 with
        | '-' :: chunk2 =>
          match getEsc chunk2 with
          | .error _ => .error ()
          | .ok (hi, chunk3) =>
            parseRanges fuel r (nrange + 1) (mtch || (lo ≤ r ∧ r ≤ hi)) chunk3
        | _ => parseRanges fuel r (nrange + 1) (mtch || (lo ≤ r ∧ r ≤ lo)) chunk1

/-- Go `matchChunk` main loop.  `Except.error` is a bad pattern, `.ok none` a
failed match, `.ok (some t)` a match leaving rest-of-name `t`.  The `failed`
flag latches; when it is set the name is no longer consumed but the chunk is
still scanned for syntax errors, exactly as in the source. -/
def matchChunkF : Nat → Bool → Str → Str → Except Unit (Option Str)
  | 0, _, _, _ => .error ()
  | _ + 1, failed0, [], s => if failed0 then .ok none else .ok (some s)
  | fuel + 1, failed0, c :: chunk', s =>
    let failed := failed0 || s.isEmpty
    if c = '[' then
      let r := if failed then Char.ofNat 0 else s.headD (Char.ofNat 0)
      let s1 := if failed then s else s.tail
      let (negated, chunk1) :=
        match chunk' with
        | '^' :: cs => (true, cs)
        | _ => (false, chunk')
      match parseRanges (chunk1.length + 1) r 0 false chunk1 with
      | .error _ => .error ()
      | .ok (mtch, chunk2) => matchChunkF fuel (failed || (mtch == negated)) chunk2 s1
    else if c = '?' then
      if failed then matchChunkF fuel true chunk' s
      else
        match s with
        | [] => matchChunkF fuel true chunk' []
        | a :: s' => matchChunkF fuel (a == '/') chunk' s'
    else if c = '\\' then
      match chunk' with
      | [] => .error ()
      | d :: chunk'' =>
        if failed then matchChunkF fuel true chunk'' s
        else
          match s with
          | [] => matchChunkF fuel true chunk'' []
          | a :: s' => matchChunkF fuel (d != a) chunk'' s'
    else
      if failed then matchChunkF fuel true chunk' s
      else
        match s with
        | [] => matchChunkF fuel true chunk' []
        | a :: s' => matchChunkF fuel (c != a) chunk' s'

/-- Go `matchChunk` with sufficient fuel. -/
def matchChunk (chunk s : Str) : Except Unit (Option Str) :=
  matchChunkF (chunk.length + 1) false chunk s

/-- Go `Match` inner star loop: try the chunk at successive positions of the
name, stopping at a separator. -/
def starLoop (chunk rest : Str) : Str → Except Unit (Option Str)
  | [] => .ok none
  | a :: name' =>
    if a = '/' then .ok none
    else
      match matchChunk chunk name' with
      | .ok (some t) =>
        if rest = [] ∧ t ≠ [] then starLoop chunk rest name'
        else .ok (some t)
      | .ok none => starLoop chunk rest name'
      | .error _ => .error ()

/-- Go `Match` trailing-syntax check: the rest of the pattern must scan without
a bad-pattern error. -/
def validChunksF : Nat → Str → Except Unit Bool
  | 0, _ => .error ()
  | fuel + 1, pattern =>
    match pattern with
    | [] => .ok false
    | _ =>
      let (_, chunk, rest) := scanChunk pattern
      match matchChunk chunk [] with
      | .error _ => .error ()
      | _ => validChunksF fuel rest

/-- Go `filepath.Match` outer loop.  Each iteration strictly shortens the
pattern, so fuel `pattern.length + 1` suffices. -/
def goMatchF : Nat → Str → Str → Except Unit Bool
  | 0, _, _ => .error ()
  | fuel + 1, pattern, name =>
    match pattern with
    | [] => .ok (name = [])
    | _ =>
      let (star, chunk, rest) := scanChunk pattern
      if star ∧ chunk = [] then .ok (!(name.contains '/'))
      else
        match matchChunk chunk name with
        | .ok (some t) =>
          if t = [] ∨ rest ≠ [] then goMatchF fuel rest t
          else if star then
            match starLoop chunk rest name with
            | .ok (some t') => goMatchF fuel rest t'
            | .ok none => validChunksF (rest.length + 1) rest
            | .error _ => .error ()
          else validChunksF (rest.length + 1) rest
        | .ok none =>
          if star then
            match starLoop chunk rest name with
            | .ok (some t') => goMatchF fuel rest t'
            | .ok none => validChunksF (rest.length + 1) rest
            | .error _ => .error ()
          else validChunksF (rest.length + 1) rest
        | .error _ => .error ()

/-- Go `filepath.Match` with sufficient fuel. -/
def goMatch (pattern name : Str) : Except Unit Bool :=
  goMatchF (pattern.length + 1) pattern name

/-- The call pattern `matched, _ := filepath.Match(...)` in the source: a bad
pattern counts as a non-match. -/
def goMatchBool (pattern name : Str) : Bool :=
  match goMatch pattern name with
  | .ok b => b
  | .error _ => false

/-- One iteration of the pattern loop in `gitignorePatterns.shouldIgnore`
(src/internal/fileutils/fileutils.go, lines 75-134): strip negation and the
directory-only marker, skip directory-only rules for files, then run the
exact-match, wildcard, double-star-prefix and separator-prefix checks.
`some v` models the early `return !negate`; `none` continues with the next
pattern. -/
def stepRule (pat0 : Str) (path : Str) (isDir : Bool) : Option Bool :=
  let negate := pat0.head? = some '!'
  let pat1 := if pat0.head? = some '!' then pat0.tail else pat0
  let dirOnly := pat1.getLast? = some '/'
  let pattern := if pat1.getLast? = some '/' then pat1.dropLast else pat1
  if dirOnly ∧ ¬ isDir then none
  else
    let matched0 := path = pattern
    if pattern.contains '*' ∧ goMatchBool pattern (goBase path) then some (!negate)
    else
      let matched1 := matched0 ∨
        (pattern.contains '*' ∧ hasInfix ['*', '*'] pattern ∧
          (trimSuffix pattern ['/', '*', '*']).isPrefixOf path)
      let matched2 := matched1 ∨ (pattern.contains '/' ∧ pattern.isPrefixOf path)
      if matched2 then some (!negate) else none

/-- Loop of `shouldIgnore` over the compiled pattern list: the first rule that
matches decides the verdict, a path matched by no rule gives `false`. -/
def shouldIgnoreGo : List Str → Str → Bool → Bool
  | [], _, _ => false
  | p :: rest, path, isDir =>
    match stepRule p path isDir with
    | some v => v
    | none => shouldIgnoreGo rest path isDir

/-- Go `gitignorePatterns.shouldIgnore`.  `filepath.ToSlash` is the identity on
the slash-separated paths modelled here. -/
def shouldIgnore (patterns : List Str) (path : Str) (isDir : Bool) : Bool :=
  shouldIgnoreGo patterns path isDir

example : shouldIgnore [strOf "node_modules"] (strOf "src/node_modules/foo.js") false = false := by
  decide

example : shouldIgnore [strOf "node_modules"] (strOf "node_modules") false = true := by decide

example : shouldIgnore [strOf "!a", strOf "a"] (strOf "a") false = false := by decide

example : shouldIgnore [strOf ".env", strOf "!important/.env"] (strOf "important/.env") false
    = false := by decide

example : shouldIgnore [strOf "logs/**"] (strOf "logsfoo") false = true := by decide

example : shouldIgnore [strOf "logs/**"] (strOf "logs") false = true := by decide

example : shouldIgnore [strOf "logs/**"] (strOf "logs/2024/a.txt") false = true := by decide

example : shouldIgnore [strOf "logs/**"] (strOf "x/logs") false = false := by decide

example : shouldIgnore [strOf "build/"] (strOf "build") false = false := by decide

example : shouldIgnore [strOf "build/"] (strOf "build") true = true := by decide

example : goMatchBool (strOf "*.txt") (strOf "a.txt") = true := by decide

example : goMatchBool (strOf "*.txt") (strOf "a.go") = false := by decide

example : goMatchBool (strOf "a[b-d]e") (strOf "ace") = true := by decide

example : goMatchBool (strOf "a[b-d]e") (strOf "aze") = false := by decide

/-- FileInfo node as consumed by `GetSelectedFiles`: path, name, directory flag,
selection flag, token count and the child list. -/
inductive FNode : Type where
  | node : String → String → Bool → Bool → Nat → List FNode → FNode

/-- Selection flag of a node. -/
def FNode.selected : FNode → Bool
  | .node _ _ _ sel _ _ => sel

/-- Directory flag of a node. -/
def FNode.dirFlag : FNode → Bool
  | .node _ _ d _ _ _ => d

/-- Child list of a node. -/
def FNode.children : FNode → List FNode
  | .node _ _ _ _ _ ch => ch

/-- Go `GetSelectedFiles` (fileutils.go 276-290): walk the forest, collecting
entries whose selection flag is set and which are not directories, each parent
before its children. -/
def getSelectedFiles : List FNode → List FNode
  | [] => []
  | FNode.node p n d sel tok ch :: rest =>
    (if sel && !d then [FNode.node p n d sel tok ch] else []) ++
    ((if ch.length > 0 then getSelectedFiles ch else []) ++ getSelectedFiles rest)

/-- Depth-first (preorder) flattening of a forest: each node before its children,
siblings in order. -/
def preorderF : List FNode → List FNode
  | [] => []
  | FNode.node p n d sel tok ch :: rest =>
    FNode.node p n d sel tok ch :: (preorderF ch ++ preorderF rest)

/-- A file record of the output document (generator.go `File`). -/
structure XFile where
  path : String
  ftype : String
  content : String
deriving DecidableEq

/-- The output document (generator.go `Prompt`); the XML serialization of this
structure is a bijective rendering and is not modelled. -/
structure PromptDoc where
  files : List XFile
  instructions : String
deriving DecidableEq

/-- The fields of a selected FileInfo used by the generator. -/
structure SelFile where
  path : String
  isDir : Bool
deriving DecidableEq

/-- Go `filepath.Ext` on the reversed final path element: the characters up to
and including the first dot. -/
def extRev : Str → Option Str
  | [] => none
  | c :: rest => if c = '.' then some [c] else (extRev rest).map (fun e => c :: e)

/-- Go `filepath.Ext`: the suffix of the final path element beginning at its
final dot, empty if there is none. -/
def goExt (p : String) : String :=
  match extRev (p.data.reverse.takeWhile (fun c => c != '/')) with
  | some e => ⟨e.reverse⟩
  | none => ""

example : goExt "a/b.go" = ".go" := by decide

example : goExt "a.b/c" = "" := by decide

example : goExt "a/b.tar.gz" = ".gz" := by decide

/-- Model of `filepath.Rel(baseDir, path)` as used by the generator: for a clean
path below `baseDir` it strips the leading `baseDir/`; otherwise the source falls
back to the raw path (the `err != nil` branch). -/
def relPath (baseDir path : String) : String :=
  if (baseDir ++ "/").data.isPrefixOf path.data then
    ⟨path.data.drop (baseDir.length + 1)⟩
  else path

/-- One worker iteration of `GenerateXML` (generator.go 92-152) on a work item:
directories are skipped, then `.DS_Store` paths, then paths matched by the root
ignore file, and otherwise the file is read and a record or a per-file error is
produced.  `read` abstracts `readFileWithBuffer` (the buffer pool does not affect
the returned content); `rootIgnore` abstracts the compiled go-gitignore matcher
of the optional root `.gitignore` (`none` models its absence). -/
def processFile (read : String → Except String String)
    (rootIgnore : Option (String → Bool)) (baseDir : String) (f : SelFile) :
    Option (Except String XFile) :=
  if f.isDir then none
  else
    let rel := relPath baseDir f.path
    if (strOf ".DS_Store").isSuffixOf rel.data then none
    else if (rootIgnore.map (fun m => m rel)).getD false then none
    else
      let ext := goExt f.path
      let ftype : String := if ext ≠ "" then ⟨ext.data.tail⟩ else ext
      match read f.path with
      | .error e => some (.error ("error reading file " ++ f.path ++ ": " ++ e))
      | .ok content => some (.ok ⟨rel, ftype, content⟩)

/-- Collector treatment of one result: a success is appended to the record list. -/
def exOk : Except String XFile → Option XFile
  | .ok x => some x
  | .error _ => none

/-- Collector treatment of one result: an error replaces `lastError`. -/
def exErr : Except String XFile → Option String
  | .error e => some e
  | .ok _ => none

/-- Go `GenerateXML` (generator.go 50-206).  The source's collector appends
records in arbitrary worker-completion order; this model serializes that order
to submission order, so the record LIST below is one possible outcome and only
completion-order-invariant facts are asserted about it (the record multiset,
the record count, and `lastError` when at most one read fails — `lastError`
would be schedule-dependent under several failures).  Returns the document
structure and the collector's last error. -/
def generateXML (read : String → Except String String)
    (rootIgnore : Option (String → Bool)) (files : List SelFile)
    (instructions baseDir : String) : PromptDoc × Option String :=
  if (files.filter (fun f => !f.isDir)).length = 0 then
    ({ files := [], instructions := instructions }, none)
  else
    ({ files := (files.filterMap (processFile read rootIgnore baseDir)).filterMap exOk,
       instructions := instructions },
     ((files.filterMap (processFile read rootIgnore baseDir)).filterMap exErr).getLast?)

/-- Abstract filesystem tree for the scanner model: a file with a name and size,
or a directory whose entry list is `none` when reading it fails. -/
inductive FsTree : Type where
  | file : String → Nat → FsTree
  | dir : String → Option (List FsTree) → FsTree

/-- Name of a filesystem node. -/
def FsTree.name : FsTree → String
  | .file n _ => n
  | .dir n _ => n

/-- FileInfo entry as produced by `ListFiles`. -/
structure Entry where
  path : String
  name : String
  isDir : Bool
  size : Nat
  extension : String
  tokenCount : Nat
deriving DecidableEq

/-- Scan filters (fileutils.go `FileFilters`).  `subPath` only re-roots the walk
and `respectGitignore` selects whether the root ignore file is consulted. -/
structure FileFilters where
  extensions : List String
  namePattern : String
  ignorePatterns : List String
  respectGitignore : Bool

/-- Insertion of a name-sorted element, for `readDirNames`' sorting of directory
entries. -/
def insertByName (t : FsTree) : List FsTree → List FsTree
  | [] => [t]
  | u :: us => if t.name ≤ u.name then t :: u :: us else u :: insertByName t us

/-- Go `readDirNames` sorts the entries of a directory by name before walking. -/
def sortByName (ts : List FsTree) : List FsTree :=
  ts.foldr insertByName []

/-- The walk callback of `ListFiles` (fileutils.go 167-242) for an entry reached
without a traversal error: gitignore check (skipped for the root itself), explicit
ignore globs against the base name, then extension and name filters for files,
producing `none` to prune/skip or the entry to append. -/
def walkCallback (gips : Option (List Str)) (filters : FileFilters) (isRoot : Bool)
    (path rel name : String) (isDir : Bool) (size : Nat) : Option Entry :=
  if filters.respectGitignore ∧ gips.isSome ∧ ¬ isRoot ∧
      shouldIgnore (gips.getD []) rel.data isDir then none
  else if filters.ignorePatterns.any (fun pat => goMatchBool pat.data name.data) then none
  else if ¬ isDir ∧ filters.extensions ≠ [] ∧
      ¬ filters.extensions.contains
        (let e := goExt path
         if e ≠ "" then (⟨e.data.tail⟩ : String) else e) then none
  else if ¬ isDir ∧ filters.namePattern ≠ "" ∧
      ¬ goMatchBool filters.namePattern.data name.data then none
  else
    some { path := path, name := name, isDir := isDir, size := size,
           extension := goExt path, tokenCount := size / 4 }

/-- Join of a base directory and relative segments into the walked path. -/
def joinPath (base : String) : List String → String
  | [] => base
  | segs => base ++ "/" ++ String.intercalate "/" segs

/-- The relative path handed to the gitignore check: `Rel(dir, path)`. -/
def relOfSegs : List String → String
  | [] => "."
  | segs => String.intercalate "/" segs

mutual

/-- Nesting depth of a filesystem tree, used as walk fuel. -/
def FsTree.depth : FsTree → Nat
  | .file _ _ => 1
  | .dir _ none => 1
  | .dir _ (some es) => 1 + depthList es

/-- Maximal depth over a list of trees. -/
def depthList : List FsTree → Nat
  | [] => 0
  | t :: ts => max t.depth (depthList ts)

end

/-- Recursive walk of `filepath.Walk` over the abstract tree, with the callback
above.  A directory whose entries cannot be read contributes nothing: the
callback receives the read error and swallows it (fileutils.go 168-170).  A
callback `SkipDir` on a directory prunes its subtree.  The fuel is the tree
depth, with which it is never exhausted. -/
def walkTree (gips : Option (List Str)) (filters : FileFilters) (base : String) :
    Nat → List String → Bool → FsTree → List Entry
  | 0, _, _, _ => []
  | _ + 1, _, _, .dir _ none => []
  | fuel + 1, segs, isRoot, .dir nm (some es) =>
    let name := if isRoot then goBase base.data |>.asString else nm
    match walkCallback gips filters isRoot (joinPath base segs) (relOfSegs segs)
        name true 0 with
    | none => []
    | some e =>
      e :: (sortByName es).flatMap (fun c =>
        walkTree gips filters base fuel (segs ++ [c.name]) false c)
  | _ + 1, segs, isRoot, .file nm size =>
    let name := if isRoot then goBase base.data |>.asString else nm
    match walkCallback gips filters isRoot (joinPath base segs) (relOfSegs segs)
        name false size with
    | none => []
    | some e => [e]

/-- Go `ListFiles` (fileutils.go 149-245) over the abstract filesystem.  `root`
is `none` when the root directory cannot be stat'd; `gitignoreFile` is `none`
when no root `.gitignore` exists, `some (.error ())` when it exists but cannot
be opened or scanned, and `some (.ok pats)` when it loads.  The returned error
mirrors the source: a gitignore load failure is returned; every traversal error,
including a failure on the root itself, is swallowed by the callback. -/
def listFiles (root : Option FsTree) (gitignoreFile : Option (Except Unit (List Str)))
    (filters : FileFilters) (dir : String) : List Entry × Option Unit :=
  match (if filters.respectGitignore then
          match gitignoreFile with
          | some (.error _) => .error ()
          | some (.ok pats) => .ok (some pats)
          | none => .ok (some [])
         else .ok none : Except Unit (Option (List Str))) with
  | .error _ => ([], some ())
  | .ok gips =>
    match root with
    | none => ([], none)
    | some t => (walkTree gips filters dir t.depth [] true t, none)

/-- Split a slash-separated path into its segments. -/
def splitSeg : Str → List Str
  | [] => [[]]
  | c :: rest =>
    if c = '/' then [] :: splitSeg rest
    else
      match splitSeg rest with
      | s :: ss => (c :: s) :: ss
      | [] => [[c]]

example : splitSeg (strOf "a/bc/d") = [strOf "a", strOf "bc", strOf "d"] := by decide

/-- Spec-modelled overall decision with last-rule-wins semantics (spec §4.1): the
last rule in source order that matches the path decides the verdict, and a path
matched by no rule is included.  Per-rule matching is the code's own rule step. -/
def lastRuleVerdict (patterns : List Str) (path : Str) (isDir : Bool) : Bool :=
  ((patterns.filterMap (fun p => stepRule p path isDir)).getLast?).getD false

/-- Success record the generator produces for a work item: `none` for directories,
otherwise the relative path, the extension-derived type and the file content. -/
def okRecord (content : String → String) (base : String) (f : SelFile) : Option XFile :=
  if f.isDir then none
  else
    some ⟨relPath base f.path,
      (let e := goExt f.path
       if e ≠ "" then (⟨e.data.tail⟩ : String) else e),
      content f.path⟩

/-- The per-file error message of the generator worker (`fmt.Errorf` format). -/
def readErrMsg (path e : String) : String :=
  "error reading file " ++ path ++ ": " ++ e

/-- Flat entry for the tree builder (the FileInfo fields BuildFileTree reads):
path, base name, directory flag and token count.  Paths are modelled as clean
slash-separated segment lists, so `filepath.Dir` is `List.dropLast` with `[]`
playing the role of `"."`. -/
structure TEntry where
  path : List String
  name : String
  isDir : Bool
  tokenCount : Nat
deriving DecidableEq

/-- Entry at an index of the flat list (arena view of the FileInfo pointers). -/
def entAt (es : List TEntry) (i : Nat) : TEntry :=
  es.getD i ⟨[], "", false, 0⟩

/-- Path of the entry at an index. -/
def pathAt (es : List TEntry) (i : Nat) : List String :=
  (entAt es i).path

/-- Directory flag of the entry at an index. -/
def dirAt (es : List TEntry) (i : Nat) : Bool :=
  (entAt es i).isDir

/-- Name of the entry at an index. -/
def nameAt (es : List TEntry) (i : Nat) : String :=
  (entAt es i).name

/-- Model of `filepath.Dir` on segment paths. -/
def dirOf (p : List String) : List String :=
  p.dropLast

/-- Go map assignment `m[k] = v`: overwrite the entry if the key is present,
else append it. -/
def mapInsert (m : List (List String × Nat)) (k : List String) (v : Nat) :
    List (List String × Nat) :=
  if m.any (fun kv => kv.1 = k) then m.map (fun kv => if kv.1 = k then (k, v) else kv)
  else m ++ [(k, v)]

/-- First pass of BuildFileTree (fileutils.go 301-310): index the directory
entries by path, later entries overwriting earlier ones with the same path. -/
def dirMapGo : List TEntry → Nat → List (List String × Nat) → List (List String × Nat)
  | [], _, m => m
  | e :: rest, i, m => dirMapGo rest (i + 1) (if e.isDir then mapInsert m e.path i else m)

/-- The directory map of the flat list. -/
def dirMapOf (es : List TEntry) : List (List String × Nat) :=
  dirMapGo es 0 []

/-- Second pass (fileutils.go 313-329): attach every non-directory entry to its
parent directory's child list if the parent is indexed, else to the root. -/
def pass2 : List TEntry → Nat → List (List String × Nat) →
    List Nat × List (Nat × Nat) → List Nat × List (Nat × Nat)
  | [], _, _, acc => acc
  | e :: rest, i, dm, acc =>
    pass2 rest (i + 1) dm
      (if e.isDir then acc
       else
         match dm.lookup (dirOf e.path) with
         | some p => (acc.1, acc.2 ++ [(p, i)])
         | none => (acc.1 ++ [i], acc.2))

/-- Third pass (fileutils.go 332-362): place every indexed directory, skipping
those whose path already names a root item, rooting those whose parent path is
themselves or `"."`, and attaching the rest to their indexed parent when its
path differs (else rooting them).  Iteration order over the Go map is
unspecified in the source; the map's insertion order is used here (the outcome
is order-independent). -/
def pass3 (es : List TEntry) (dm : List (List String × Nat)) :
    List (List String × Nat) → List Nat × List (Nat × Nat) →
    List Nat × List (Nat × Nat)
  | [], acc => acc
  | (k, d) :: rest, acc =>
    pass3 es dm rest
      (if acc.1.any (fun r => pathAt es r = k) then acc
       else if dirOf k = k ∨ dirOf k = [] then (acc.1 ++ [d], acc.2)
       else
         match dm.lookup (dirOf k) with
         | some p => if pathAt es p ≠ k then (acc.1, acc.2 ++ [(p, d)]) else (acc.1 ++ [d], acc.2)
         | none => (acc.1 ++ [d], acc.2))

/-- Indices of the directory entries, in input order. -/
def dirIdxs : List TEntry → Nat → List Nat
  | [], _ => []
  | e :: rest, i => (if e.isDir then [i] else []) ++ dirIdxs rest (i + 1)

/-- The three passes plus the empty-root fallback (fileutils.go 366-377):
root indices and parent-to-child edges in creation order. -/
def buildResult (es : List TEntry) : List Nat × List (Nat × Nat) :=
  let dm := dirMapOf es
  let acc3 := pass3 es dm dm (pass2 es 0 dm ([], []))
  let root :=
    if acc3.1.isEmpty ∧ 0 < es.length then
      let dirs := dirIdxs es 0
      if dirs.isEmpty then List.range es.length else dirs
    else acc3.1
  (root, acc3.2)

/-- The comparator of sortFileTreeDirectoriesFirst (fileutils.go 427-434):
directories before files, then ascending name. -/
def sibLess (es : List TEntry) (i j : Nat) : Bool :=
  if dirAt es i != dirAt es j then dirAt es i else decide (nameAt es i < nameAt es j)

/-- Insertion step of the sibling sort. -/
def insertSib (es : List TEntry) (x : Nat) : List Nat → List Nat
  | [] => [x]
  | y :: ys => if sibLess es y x then y :: insertSib es x ys else x :: y :: ys

/-- Model of `sort.Slice` with the comparator above: the source's unstable sort
guarantees only an order sorted with respect to the comparator, which this
insertion sort produces. -/
def sortSib (es : List TEntry) (l : List Nat) : List Nat :=
  l.foldr (insertSib es) []

/-- Child list of a node, in edge-creation order. -/
def childrenOf (edges : List (Nat × Nat)) (i : Nat) : List Nat :=
  (edges.filter (fun pr => pr.1 = i)).map (fun pr => pr.2)

/-- Go `BuildFileTree` (fileutils.go 293-390): the root list (sorted) and the
edge list.  Children are sorted by the same comparator when read (the source
sorts every directory's child list once after building, which yields the same
tree). -/
def buildFileTree (es : List TEntry) : List Nat × List (Nat × Nat) :=
  ((sortSib es (buildResult es).1), (buildResult es).2)

/-- Depth-first flattening of the built tree, each node before its sorted
children.  The fuel `es.length + 1` always suffices: parent chains strictly
shorten the path. -/
def dfsIdx (es : List TEntry) (edges : List (Nat × Nat)) : Nat → Nat → List Nat
  | 0, _ => []
  | fuel + 1, i => i :: (sortSib es (childrenOf edges i)).flatMap (dfsIdx es edges fuel)

/-- Build followed by a full recursive flatten, as entries. -/
def flattenBuild (es : List TEntry) : List TEntry :=
  ((buildFileTree es).1.flatMap (dfsIdx es (buildFileTree es).2 (es.length + 1))).map (entAt es)

/-- The directory (path, index) pairs of the flat list, in input order
(characterizes the directory map when paths are distinct). -/
def dirPairs : List TEntry → Nat → List (List String × Nat)
  | [], _ => []
  | e :: rest, i => (if e.isDir then [(e.path, i)] else []) ++ dirPairs rest (i + 1)

/-- Root indices contributed by the second pass. -/
def rootsF : List TEntry → Nat → List (List String × Nat) → List Nat
  | [], _, _ => []
  | e :: rest, i, dm =>
    (if e.isDir then []
     else
       match dm.lookup (dirOf e.path) with
       | some _ => []
       | none => [i]) ++ rootsF rest (i + 1) dm

/-- Edges contributed by the second pass. -/
def edgesF : List TEntry → Nat → List (List String × Nat) → List (Nat × Nat)
  | [], _, _ => []
  | e :: rest, i, dm =>
    (if e.isDir then []
     else
       match dm.lookup (dirOf e.path) with
       | some p => [(p, i)]
       | none => []) ++ edgesF rest (i + 1) dm

/-- Root indices contributed by the third pass (when no root collision occurs). -/
def roots3F (es : List TEntry) (full : List (List String × Nat)) :
    List (List String × Nat) → List Nat
  | [] => []
  | (k, d) :: rest =>
    (if dirOf k = k ∨ dirOf k = [] then [d]
     else
       match full.lookup (dirOf k) with
       | some p => if pathAt es p ≠ k then [] else [d]
       | none => [d]) ++ roots3F es full rest

/-- Edges contributed by the third pass (when no root collision occurs). -/
def edges3F (es : List TEntry) (full : List (List String × Nat)) :
    List (List String × Nat) → List (Nat × Nat)
  | [] => []
  | (k, d) :: rest =>
    (if dirOf k = k ∨ dirOf k = [] then []
     else
       match full.lookup (dirOf k) with
       | some p => if pathAt es p ≠ k then [(p, d)] else []
       | none => []) ++ edges3F es full rest

/-- Where the build places an entry: `some p` when it becomes a child of the
indexed directory `p`, `none` when it becomes a root. -/
def placeOf (es : List TEntry) (j : Nat) : Option Nat :=
  if dirAt es j = false then (dirMapOf es).lookup (dirOf (pathAt es j))
  else if dirOf (pathAt es j) = pathAt es j ∨ dirOf (pathAt es j) = [] then none
  else
    match (dirMapOf es).lookup (dirOf (pathAt es j)) with
    | some p => if pathAt es p ≠ pathAt es j then some p else none
    | none => none

/-- Fueled ancestry along the placement chain: `i` is `j` or an iterated parent
of `j`.  Stable once the fuel reaches the path length of `j`. -/
def ancB (es : List TEntry) : Nat → Nat → Nat → Bool
  | 0, i, j => i == j
  | fuel + 1, i, j =>
    i == j ||
      match placeOf es j with
      | some p => ancB es fuel i p
      | none => false

/-- Path length of the entry at an index. -/
def rankAt (es : List TEntry) (i : Nat) : Nat :=
  (pathAt es i).length

/-- Second-pass root condition at an absolute index. -/
def isRoot2 (es0 : List TEntry) (dm : List (List String × Nat)) (j : Nat) : Bool :=
  match es0.get? j with
  | some e => !e.isDir && (dm.lookup (dirOf e.path)).isNone
  | none => false

/-- Second-pass edge target at an absolute index. -/
def edgeTgt2 (es0 : List TEntry) (dm : List (List String × Nat)) (j : Nat) : Option Nat :=
  match es0.get? j with
  | some e => if e.isDir then none else dm.lookup (dirOf e.path)
  | none => none

/-- Third-pass root condition for a directory-map key. -/
def root3cond (es : List TEntry) (full : List (List String × Nat)) (k : List String) : Bool :=
  decide (dirOf k = k ∨ dirOf k = []) ||
    (match full.lookup (dirOf k) with
     | some p => decide (pathAt es p = k)
     | none => true)

/-- Third-pass edge target for a directory-map key. -/
def edge3Tgt (es : List TEntry) (full : List (List String × Nat)) (k : List String) :
    Option Nat :=
  if dirOf k = k ∨ dirOf k = [] then none
  else
    match full.lookup (dirOf k) with
    | some p => if pathAt es p ≠ k then some p else none
    | none => none

/-- Round a rational to the nearest integer, ties to even (the rounding used
both by IEEE-754 binary64 arithmetic and by Go strconv fixed-format printing). -/
def rhe (q : ℚ) : ℤ :=
  if q - ⌊q⌋ < 1 / 2 then ⌊q⌋
  else if 1 / 2 < q - ⌊q⌋ then ⌊q⌋ + 1
  else if ⌊q⌋ % 2 = 0 then ⌊q⌋ else ⌊q⌋ + 1

/-- The IEEE-754 binary64 value nearest a rational (round to nearest, ties to
even; 53-bit significand, unbounded exponent — exact for the magnitudes the
source feeds it, which stay far from overflow and subnormals). -/
def toDouble (q : ℚ) : ℚ :=
  if q = 0 then 0
  else (rhe (q / 2 ^ (Int.log 2 |q| - 52)) : ℚ) * 2 ^ (Int.log 2 |q| - 52)

/-- Go float64 division: divide exactly, then round to the nearest double. -/
def fdiv (a b : ℚ) : ℚ := toDouble (a / b)

/-- Go fmt `%.1f` on the nonnegative doubles produced here: the exact value is
scaled by ten, rounded half-to-even, and printed as units, dot, tenths digit. -/
def fmtDec1 (q : ℚ) : String :=
  toString (rhe (q * 10) / 10) ++ "." ++ toString (rhe (q * 10) % 10)

/-- Go `FormatTokenCount` (fileutils.go 413-422): plain decimal below 1000,
`%.1fK` of count/1000 below one million, else `%.1fM` of count/1000000, the
divisions performed in float64. -/
def FormatTokenCount (count : ℤ) : String :=
  if count < 1000 then toString count
  else if count < 1000000 then fmtDec1 (fdiv (toDouble (count : ℚ)) 1000) ++ "K"
  else fmtDec1 (fdiv (toDouble (count : ℚ)) 1000000) ++ "M"

section ClaimTheorems

/-- C1: the claim says a literal pattern without separators or metacharacters
matches iff it equals the final path segment or any path segment, so that
`node_modules` matches `src/node_modules/foo.js`.  The code disagrees: at that
exact input the matcher reports no match (it only compares such a literal
against the whole path), although `node_modules` is a segment of the path. -/
theorem shouldIgnore_literal_segment_miss :
    shouldIgnore [strOf "node_modules"] (strOf "src/node_modules/foo.js") false = false ∧
    strOf "node_modules" ∈ splitSeg (strOf "src/node_modules/foo.js") := by
  constructor
  · decide
  · decide

/-- C2: the claim says the verdict is decided by the last matching rule.  The
code returns on the first matching rule: for the rule list `["!a", "a"]` and
path `a` the first rule (negated) matches and the code reports the path as
included (`false`), while last-rule-wins semantics would report it excluded
(`true`). -/
theorem shouldIgnore_first_match_wins :
    shouldIgnore [strOf "!a", strOf "a"] (strOf "a") false = false ∧
    lastRuleVerdict [strOf "!a", strOf "a"] (strOf "a") false = true := by
  constructor
  · decide
  · decide

/-- C10: GetSelectedFiles returns exactly the reachable entries whose selection
flag is set and which are not directories, in depth-first traversal order, and
never a directory entry. -/
theorem getSelectedFiles_eq_filter_preorder (ts : List FNode) :
    getSelectedFiles ts =
      (preorderF ts).filter (fun f => f.selected && !f.dirFlag) ∧
    ∀ e ∈ getSelectedFiles ts, e.dirFlag = false := by
  have main : ∀ us : List FNode, getSelectedFiles us =
      (preorderF us).filter (fun f => f.selected && !f.dirFlag) := by
    intro us
    induction us using getSelectedFiles.induct with
    | case1 => simp [getSelectedFiles, preorderF]
    | case2 p n d sel tok ch rest ih1 ih2 =>
      rcases hch : ch with _ | ⟨c, cs⟩ <;> subst hch <;>
        simp only [getSelectedFiles, preorderF, List.filter_cons, List.filter_append,
          FNode.selected, FNode.dirFlag, ih1, ih2] <;>
      split <;> simp_all [getSelectedFiles, preorderF]
  refine ⟨main ts, ?_⟩
  intro e he
  rw [main ts] at he
  have := List.of_mem_filter he
  simp only [Bool.and_eq_true, Bool.not_eq_true'] at this
  exact this.2

/-- C7: when the selection holds zero non-directory entries, GenerateXML returns
the document with no file records and the instructions verbatim, and no error. -/
theorem generateXML_empty_selection (read : String → Except String String)
    (rootIgnore : Option (String → Bool)) (files : List SelFile) (instr base : String)
    (h : ∀ f ∈ files, f.isDir = true) :
    generateXML read rootIgnore files instr base =
      ({ files := [], instructions := instr }, none) := by
  have hf : files.filter (fun f => !f.isDir) = [] := by
    rw [List.filter_eq_nil_iff]
    intro f hfm
    simp [h f hfm]
  unfold generateXML
  rw [hf]
  simp

/-- Witness for C7 at a concrete directory-only selection. -/
theorem generateXML_empty_selection_witness :
    generateXML (fun _ => Except.ok "") none [⟨"b/d", true⟩] "do this" "b" =
      ({ files := [], instructions := "do this" }, none) :=
  generateXML_empty_selection (fun _ => Except.ok "") none [⟨"b/d", true⟩] "do this" "b"
    (by intro f hf; rw [List.mem_singleton] at hf; subst hf; rfl)

/-- C8: a rule whose raw pattern ends in a separator never matches a file
candidate: its step yields no verdict, and inserting it anywhere in a rule list
does not change the matcher's output for any file path. -/
theorem dirOnly_rule_never_matches_files (l1 l2 : List Str) (p : Str) (path : Str)
    (hp : p.getLast? = some '/') :
    stepRule p path false = none ∧
    shouldIgnore (l1 ++ p :: l2) path false = shouldIgnore (l1 ++ l2) path false := by
  have hstep : ∀ q : Str, q.getLast? = some '/' → stepRule q path false = none := by
    intro q hq
    unfold stepRule
    have hlast : (if q.head? = some '!' then q.tail else q).getLast? = some '/' := by
      split
      · rename_i hhd
        rcases q with _ | ⟨a, t⟩
        · simp at hq
        · rcases t with _ | ⟨b, t'⟩
          · simp at hq hhd
            rw [hq] at hhd
            cases hhd
          · simpa [List.getLast?_cons_cons] using hq
      · exact hq
    simp [hlast]
  refine ⟨hstep p hp, ?_⟩
  induction l1 with
  | nil =>
    show shouldIgnoreGo (p :: l2) path false = shouldIgnoreGo l2 path false
    simp [shouldIgnoreGo, hstep p hp]
  | cons q l1' ih =>
    show shouldIgnoreGo (q :: (l1' ++ p :: l2)) path false
        = shouldIgnoreGo (q :: (l1' ++ l2)) path false
    simp only [shouldIgnoreGo]
    rcases stepRule q path false with _ | v
    · exact ih
    · rfl

/-- Witness for C8 at a concrete rule list: the directory-only rule `build/`
does not match the file `build`, with and without surrounding rules. -/
theorem dirOnly_rule_never_matches_files_witness :
    stepRule (strOf "build/") (strOf "build") false = none ∧
    shouldIgnore [strOf "x", strOf "build/", strOf "y"] (strOf "build") false
      = shouldIgnore [strOf "x", strOf "y"] (strOf "build") false :=
  dirOnly_rule_never_matches_files [strOf "x"] [strOf "y"] (strOf "build/")
    (strOf "build") (by decide)

/-- Worker behavior on a directory item: skipped. -/
theorem processFile_dir (read : String → Except String String)
    (ri : Option (String → Bool)) (base : String) (f : SelFile) (hd : f.isDir = true) :
    processFile read ri base f = none := by
  unfold processFile
  rw [hd]
  simp

/-- Worker behavior on a clean, readable file item: a success record. -/
theorem processFile_ok (read : String → Except String String) (content : String → String)
    (base : String) (f : SelFile) (hd : f.isDir = false)
    (hclean : (strOf ".DS_Store").isSuffixOf (relPath base f.path).data = false)
    (hr : read f.path = Except.ok (content f.path)) :
    processFile read none base f = (okRecord content base f).map Except.ok := by
  unfold processFile okRecord
  rw [hd]
  simp [hclean, hr]

/-- Worker behavior on a clean file item whose read fails: a per-file error. -/
theorem processFile_err (read : String → Except String String)
    (base : String) (f : SelFile) (e : String) (hd : f.isDir = false)
    (hclean : (strOf ".DS_Store").isSuffixOf (relPath base f.path).data = false)
    (hr : read f.path = Except.error e) :
    processFile read none base f = some (.error (readErrMsg f.path e)) := by
  unfold processFile readErrMsg
  rw [hd]
  simp [hclean, hr]

/-- The success record is produced exactly for non-directory items. -/
theorem okRecord_isSome (content : String → String) (base : String) (f : SelFile) :
    (okRecord content base f).isSome = !f.isDir := by
  unfold okRecord
  cases hd : f.isDir <;> simp

/-- One record per non-directory entry. -/
theorem okRecord_length (content : String → String) (base : String) :
    ∀ files : List SelFile,
      (files.filterMap (okRecord content base)).length
        = (files.filter (fun f => !f.isDir)).length := by
  intro files
  induction files with
  | nil => rfl
  | cons f fs ih =>
    rw [List.filterMap_cons, List.filter_cons]
    cases hd : f.isDir
    · have : okRecord content base f =
          some ⟨relPath base f.path,
            (let e := goExt f.path
             if e ≠ "" then (⟨e.data.tail⟩ : String) else e),
            content f.path⟩ := by
        unfold okRecord
        rw [hd]
        rfl
      rw [this]
      simp [hd, ih]
    · have : okRecord content base f = none := by
        unfold okRecord
        rw [hd]
        rfl
      rw [this]
      simp [hd, ih]

/-- On an all-clean all-readable list, the worker results are the success
records in order. -/
theorem results_all_ok (read : String → Except String String) (content : String → String)
    (base : String) :
    ∀ files : List SelFile,
      (∀ f ∈ files, f.isDir = false →
        (strOf ".DS_Store").isSuffixOf (relPath base f.path).data = false) →
      (∀ f ∈ files, f.isDir = false → read f.path = Except.ok (content f.path)) →
      files.filterMap (processFile read none base)
        = (files.filterMap (okRecord content base)).map Except.ok := by
  intro files
  induction files with
  | nil => intro _ _; rfl
  | cons f fs ih =>
    intro h1 h2
    rw [List.filterMap_cons, List.filterMap_cons]
    cases hd : f.isDir
    · rw [processFile_ok read content base f hd
        (h1 f (List.mem_cons_self f fs) hd) (h2 f (List.mem_cons_self f fs) hd)]
      rcases hrec : okRecord content base f with _ | rec
      · simp only [Option.map_none]
        exact ih (fun g hg => h1 g (List.mem_cons_of_mem f hg))
          (fun g hg => h2 g (List.mem_cons_of_mem f hg))
      · simp only [Option.map_some]
        rw [ih (fun g hg => h1 g (List.mem_cons_of_mem f hg))
          (fun g hg => h2 g (List.mem_cons_of_mem f hg))]
        simp
    · rw [processFile_dir read none base f hd]
      have : okRecord content base f = none := by
        unfold okRecord
        rw [hd]
        rfl
      rw [this]
      exact ih (fun g hg => h1 g (List.mem_cons_of_mem f hg))
        (fun g hg => h2 g (List.mem_cons_of_mem f hg))

/-- Extracting successes from all-success results gives back the records. -/
theorem oks_of_map_ok (xs : List XFile) : (xs.map Except.ok).filterMap exOk = xs := by
  induction xs with
  | nil => rfl
  | cons x xs ih => simp [exOk, ih]

/-- Extracting errors from all-success results gives nothing. -/
theorem errs_of_map_ok (xs : List XFile) : (xs.map Except.ok).filterMap exErr = [] := by
  induction xs with
  | nil => rfl
  | cons x xs ih => simp [exErr, ih]

/-- C4 counterexample: a selection of exactly one non-directory, readable entry
whose name is the OS noise file `.DS_Store` produces zero file records and a nil
error, while the claim promises one record for one readable selected file. -/
theorem generateXML_skips_noise_file :
    generateXML (fun _ => Except.ok "data") none [⟨"b/.DS_Store", false⟩] "i" "b"
      = ({ files := [], instructions := "i" }, none) ∧
    (([⟨"b/.DS_Store", false⟩] : List SelFile).filter (fun f => !f.isDir)).length = 1 := by
  exact ⟨rfl, rfl⟩

/-- C4 (amended): for a selection none of whose non-directory entries has the
`.DS_Store` noise suffix on its base-relative path, and with no root ignore
file present: if every selected file reads successfully, the document holds
exactly one record per selected file — pairing the base-relative path with that
file's content, in scheduler-dependent order, stated here as a permutation —
and the error is nil; if exactly one selected file fails to read, the document
holds exactly the records of the other selected files (again as a permutation:
the source's collector receives results in arbitrary worker-completion order)
and the error is non-nil (the failing file's read error, which every completion
order reports when it is the only failure). -/
theorem generateXML_partial_success (read : String → Except String String)
    (content : String → String) (files : List SelFile) (instr base : String)
    (hclean : ∀ f ∈ files, f.isDir = false →
      (strOf ".DS_Store").isSuffixOf (relPath base f.path).data = false) :
    ((∀ f ∈ files, f.isDir = false → read f.path = Except.ok (content f.path)) →
      (generateXML read none files instr base).1.files.Perm
          (files.filterMap (okRecord content base))
      ∧ (generateXML read none files instr base).1.instructions = instr
      ∧ (generateXML read none files instr base).2 = none
      ∧ (files.filterMap (okRecord content base)).length
          = (files.filter (fun f => !f.isDir)).length) ∧
    (∀ l1 f0 l2 e, files = l1 ++ f0 :: l2 → f0.isDir = false →
      read f0.path = Except.error e →
      (∀ f ∈ l1 ++ l2, f.isDir = false → read f.path = Except.ok (content f.path)) →
      (generateXML read none files instr base).1.files.Perm
          ((l1 ++ l2).filterMap (okRecord content base))
      ∧ (generateXML read none files instr base).1.instructions = instr
      ∧ (generateXML read none files instr base).2 = some (readErrMsg f0.path e)
      ∧ ((l1 ++ l2).filterMap (okRecord content base)).length + 1
          = (files.filter (fun f => !f.isDir)).length) := by
  constructor
  · intro hok
    have heq : generateXML read none files instr base
        = ({ files := files.filterMap (okRecord content base),
             instructions := instr }, none) := by
      unfold generateXML
      rcases hN : (files.filter (fun f => !f.isDir)).length with _ | n
      · have hnil : files.filterMap (okRecord content base) = [] := by
          rw [← List.length_eq_zero]
          rw [okRecord_length content base files, hN]
        rw [if_pos hN, hnil]
      · rw [if_neg (by omega)]
        rw [results_all_ok read content base files hclean hok]
        rw [oks_of_map_ok, errs_of_map_ok]
        rfl
    refine ⟨?_, ?_, ?_, okRecord_length content base files⟩
    · rw [heq]
    · rw [heq]
    · rw [heq]
  · intro l1 f0 l2 e hsplit hd0 herr hok
    have hcl1 : ∀ f ∈ l1, f.isDir = false →
        (strOf ".DS_Store").isSuffixOf (relPath base f.path).data = false := by
      intro f hf
      exact hclean f (by rw [hsplit]; exact List.mem_append_left _ hf)
    have hcl2 : ∀ f ∈ l2, f.isDir = false →
        (strOf ".DS_Store").isSuffixOf (relPath base f.path).data = false := by
      intro f hf
      exact hclean f (by rw [hsplit]; simp [hf])
    have hcl0 : (strOf ".DS_Store").isSuffixOf (relPath base f0.path).data = false :=
      hclean f0 (by rw [hsplit]; simp) hd0
    have hres : files.filterMap (processFile read none base)
        = (l1.filterMap (okRecord content base)).map Except.ok
          ++ Except.error (readErrMsg f0.path e)
          :: (l2.filterMap (okRecord content base)).map Except.ok := by
      rw [hsplit, List.filterMap_append, List.filterMap_cons]
      rw [processFile_err read base f0 e hd0 hcl0 herr]
      rw [results_all_ok read content base l1 hcl1
        (fun f hf => hok f (List.mem_append_left _ hf))]
      rw [results_all_ok read content base l2 hcl2
        (fun f hf => hok f (List.mem_append_right _ hf))]
    have hcount : (files.filter (fun f => !f.isDir)).length
        = (l1.filter (fun f => !f.isDir)).length
          + (l2.filter (fun f => !f.isDir)).length + 1 := by
      rw [hsplit, List.filter_append, List.filter_cons]
      simp only [hd0, Bool.not_false, if_pos, List.length_append, List.length_cons]
      omega
    have heq : generateXML read none files instr base
        = ({ files := (l1 ++ l2).filterMap (okRecord content base),
             instructions := instr }, some (readErrMsg f0.path e)) := by
      unfold generateXML
      rw [if_neg (by omega)]
      rw [hres]
      have hoks : ((l1.filterMap (okRecord content base)).map Except.ok
            ++ Except.error (readErrMsg f0.path e)
            :: (l2.filterMap (okRecord content base)).map Except.ok).filterMap exOk
          = (l1 ++ l2).filterMap (okRecord content base) := by
        rw [List.filterMap_append, List.filterMap_cons, List.filterMap_append]
        rw [oks_of_map_ok, oks_of_map_ok]
        rfl
      have herrs : ((l1.filterMap (okRecord content base)).map Except.ok
            ++ Except.error (readErrMsg f0.path e)
            :: (l2.filterMap (okRecord content base)).map Except.ok).filterMap exErr
          = [readErrMsg f0.path e] := by
        rw [List.filterMap_append, List.filterMap_cons]
        rw [errs_of_map_ok, errs_of_map_ok]
        rfl
      rw [hoks, herrs]
      rfl
    refine ⟨?_, ?_, ?_, ?_⟩
    · rw [heq]
    · rw [heq]
    · rw [heq]
    · rw [hcount, List.filterMap_append, List.length_append]
      rw [okRecord_length content base l1, okRecord_length content base l2]


/-- Witness for C4 at concrete two-file selections: the all-success case yields
both records (up to completion order) and no error; deleting one file yields
the other record and the read error. -/
theorem generateXML_partial_success_witness :
    ((generateXML (fun _ => Except.ok "cc") none
        [⟨"b/x.txt", false⟩, ⟨"b/y.txt", false⟩] "i" "b").1.files.Perm
      [⟨"x.txt", "txt", "cc"⟩, ⟨"y.txt", "txt", "cc"⟩] ∧
     (generateXML (fun _ => Except.ok "cc") none
        [⟨"b/x.txt", false⟩, ⟨"b/y.txt", false⟩] "i" "b").2 = none) ∧
    ((generateXML (fun p => if p = "b/y.txt" then Except.error "gone" else Except.ok "cc") none
        [⟨"b/x.txt", false⟩, ⟨"b/y.txt", false⟩] "i" "b").1.files.Perm
      [⟨"x.txt", "txt", "cc"⟩] ∧
     (generateXML (fun p => if p = "b/y.txt" then Except.error "gone" else Except.ok "cc") none
        [⟨"b/x.txt", false⟩, ⟨"b/y.txt", false⟩] "i" "b").2
       = some (readErrMsg "b/y.txt" "gone")) := by
  constructor
  · have h := (generateXML_partial_success (fun _ => Except.ok "cc") (fun _ => "cc")
      [⟨"b/x.txt", false⟩, ⟨"b/y.txt", false⟩] "i" "b"
      (by intro f hf hd; fin_cases hf <;> rfl)).1
      (by intro f hf hd; rfl)
    exact ⟨h.1, h.2.2.1⟩
  · have h := (generateXML_partial_success
      (fun p => if p = "b/y.txt" then Except.error "gone" else Except.ok "cc") (fun _ => "cc")
      [⟨"b/x.txt", false⟩, ⟨"b/y.txt", false⟩] "i" "b"
      (by intro f hf hd; fin_cases hf <;> rfl)).2
      [⟨"b/x.txt", false⟩] ⟨"b/y.txt", false⟩ [] "gone" rfl rfl (by rfl)
      (by intro f hf hd; fin_cases hf <;> rfl)
    exact ⟨h.1, h.2.2.1⟩

/-- C3: the claim says a root directory that cannot be opened or read makes the
scan return a non-nil error.  The code swallows every traversal error, including
the root's own stat or read failure, because the walk callback returns nil on
error (fileutils.go 168-170): for an absent root and for a root whose directory
read fails, ListFiles returns an empty list and a nil error. -/
theorem listFiles_root_error_swallowed :
    listFiles none none
      { extensions := [], namePattern := "", ignorePatterns := [],
        respectGitignore := false } "/gone" = ([], none) ∧
    listFiles none none
      { extensions := [], namePattern := "", ignorePatterns := [],
        respectGitignore := true } "/gone" = ([], none) ∧
    listFiles (some (FsTree.dir "gone" none)) none
      { extensions := [], namePattern := "", ignorePatterns := [],
        respectGitignore := false } "/gone" = ([], none) := by
  exact ⟨rfl, rfl, rfl⟩


/-- A literal chunk (no bracket, question mark or escape) scanned with the
failed flag set consumes the chunk and reports a failed match. -/
theorem matchChunkF_literal_failed (chunk : Str) :
    ∀ (fuel : Nat) (s : Str), chunk.length < fuel →
      '[' ∉ chunk → '?' ∉ chunk → '\\' ∉ chunk →
      matchChunkF fuel true chunk s = .ok none := by
  induction chunk with
  | nil =>
    intro fuel s hf _ _ _
    rcases fuel with _ | f
    · omega
    · rfl
  | cons c chunk' ih =>
    intro fuel s hf h1 h2 h3
    rcases fuel with _ | f
    · omega
    · have hc1 : ¬ c = '[' := fun h => h1 (by rw [h]; exact List.mem_cons_self _ _)
      have hc2 : ¬ c = '?' := fun h => h2 (by rw [h]; exact List.mem_cons_self _ _)
      have hc3 : ¬ c = '\\' := fun h => h3 (by rw [h]; exact List.mem_cons_self _ _)
      show matchChunkF (f + 1) true (c :: chunk') s = .ok none
      simp only [matchChunkF, Bool.true_or, if_neg hc1, if_neg hc2, if_neg hc3, if_true]
      exact ih f s (by simp only [List.length_cons] at hf; omega)
        (fun h => h1 (List.mem_cons_of_mem _ h)) (fun h => h2 (List.mem_cons_of_mem _ h))
        (fun h => h3 (List.mem_cons_of_mem _ h))

/-- A literal chunk matches by plain string-prefix comparison. -/
theorem matchChunkF_literal (chunk : Str) :
    ∀ (fuel : Nat) (s : Str), chunk.length < fuel →
      '[' ∉ chunk → '?' ∉ chunk → '\\' ∉ chunk →
      matchChunkF fuel false chunk s =
        if chunk.isPrefixOf s then .ok (some (s.drop chunk.length)) else .ok none := by
  induction chunk with
  | nil =>
    intro fuel s hf _ _ _
    rcases fuel with _ | f
    · omega
    · simp [List.isPrefixOf, matchChunkF]
  | cons c chunk' ih =>
    intro fuel s hf h1 h2 h3
    rcases fuel with _ | f
    · omega
    · have hc1 : ¬ c = '[' := fun h => h1 (by rw [h]; exact List.mem_cons_self _ _)
      have hc2 : ¬ c = '?' := fun h => h2 (by rw [h]; exact List.mem_cons_self _ _)
      have hc3 : ¬ c = '\\' := fun h => h3 (by rw [h]; exact List.mem_cons_self _ _)
      have hm1 : '[' ∉ chunk' := fun h => h1 (List.mem_cons_of_mem _ h)
      have hm2 : '?' ∉ chunk' := fun h => h2 (List.mem_cons_of_mem _ h)
      have hm3 : '\\' ∉ chunk' := fun h => h3 (List.mem_cons_of_mem _ h)
      have hlen : chunk'.length < f := by simp only [List.length_cons] at hf; omega
      rcases s with _ | ⟨a, s'⟩
      · show matchChunkF (f + 1) false (c :: chunk') [] = _
        simp only [matchChunkF, List.isEmpty_nil, Bool.false_or, if_neg hc1, if_neg hc2,
          if_neg hc3, if_true]
        rw [matchChunkF_literal_failed chunk' f [] hlen hm1 hm2 hm3]
        simp [List.isPrefixOf]
      · show matchChunkF (f + 1) false (c :: chunk') (a :: s') = _
        simp only [matchChunkF, List.isEmpty_cons, Bool.false_or, if_neg hc1, if_neg hc2,
          if_neg hc3]
        by_cases hca : c = a
        · have hbne : (c != a) = false := by simp [hca]
          rw [hbne, ih f s' hlen hm1 hm2 hm3]
          simp [List.isPrefixOf, hca]
        · have hbne : (c != a) = true := by simp [hca]
          rw [hbne, matchChunkF_literal_failed chunk' f s' hlen hm1 hm2 hm3]
          have : (c == a) = false := by simp [hca]
          simp [List.isPrefixOf, this]

/-- One unfolding step of the chunk scan on a cons pattern. -/
theorem scanBody_cons (c : Char) (rest : Str) (inrange : Bool) :
    scanBody (c :: rest) inrange =
      (if c = '\\' then
        match rest with
        | [] => (['\\'], [])
        | c2 :: rest' =>
          let (ch, r) := scanBody rest' inrange
          ('\\' :: c2 :: ch, r)
      else if c = '[' then
        let (ch, r) := scanBody rest true
        ('[' :: ch, r)
      else if c = ']' then
        let (ch, r) := scanBody rest false
        (']' :: ch, r)
      else if c = '*' then
        if inrange then
          let (ch, r) := scanBody rest inrange
          ('*' :: ch, r)
        else ([], '*' :: rest)
      else
        let (ch, r) := scanBody rest inrange
        (c :: ch, r)) := by
  rw [scanBody.eq_def]
  rfl

/-- Scan of a plain literal followed by the double-star tail: the chunk is the
literal plus the separator, the rest is the star pair. -/
theorem scanBody_plain (pre : Str) :
    '*' ∉ pre → '[' ∉ pre → '\\' ∉ pre →
    scanBody (pre ++ ['/', '*', '*']) false = (pre ++ ['/'], ['*', '*']) := by
  induction pre with
  | nil => intro _ _ _; rfl
  | cons c pre' ih =>
    intro h1 h3 h4
    have hc1 : ¬ c = '*' := fun h => h1 (by rw [h]; exact List.mem_cons_self _ _)
    have hc3 : ¬ c = '[' := fun h => h3 (by rw [h]; exact List.mem_cons_self _ _)
    have hc4 : ¬ c = '\\' := fun h => h4 (by rw [h]; exact List.mem_cons_self _ _)
    have hrec := ih (fun h => h1 (List.mem_cons_of_mem _ h))
      (fun h => h3 (List.mem_cons_of_mem _ h)) (fun h => h4 (List.mem_cons_of_mem _ h))
    show scanBody (c :: (pre' ++ ['/', '*', '*'])) false = _
    rw [scanBody_cons, if_neg hc4, if_neg hc3]
    by_cases hcr : c = ']'
    · rw [if_pos hcr]
      simp only [hrec]
      rw [hcr]
      simp [List.cons_append]
    · rw [if_neg hcr, if_neg hc1]
      simp only [hrec]
      simp [List.cons_append]

/-- The base name of a path is either the bare separator (an all-slash path) or
contains no separator. -/
theorem goBase_cases (p : Str) : goBase p = ['/'] ∨ '/' ∉ goBase p := by
  by_cases hp : p = []
  · right
    subst hp
    decide
  · simp only [goBase, if_neg hp]
    by_cases hq0 : (p.reverse.dropWhile (fun c => c == '/')).reverse = []
    · rw [if_pos hq0]
      left
      rfl
    · rw [if_neg hq0]
      right
      intro hmem
      rw [List.mem_reverse] at hmem
      have := List.mem_takeWhile_imp hmem
      simp at this

/-- Containment of a substring survives prepending. -/
theorem hasInfix_append (needle m : Str) (hm : hasInfix needle m = true) :
    ∀ l : Str, hasInfix needle (l ++ m) = true := by
  intro l
  induction l with
  | nil => simpa
  | cons c l' ih => simp [hasInfix, ih]

/-- Dropping the double-star tail of such a pattern leaves the literal. -/
theorem trimSuffix_doubleStar (pre : Str) :
    trimSuffix (pre ++ ['/', '*', '*']) ['/', '*', '*'] = pre := by
  unfold trimSuffix
  rw [if_pos (List.isSuffixOf_iff_suffix.mpr (List.suffix_append pre _))]
  have hl : (pre ++ ['/', '*', '*']).length - ([ '/', '*', '*'] : Str).length
      = pre.length := by
    simp
  rw [hl, List.take_left]

/-- The chunk scan of a plain double-star pattern. -/
theorem scanChunk_doubleStar (pre : Str)
    (h1 : '*' ∉ pre) (h3 : '[' ∉ pre) (h4 : '\\' ∉ pre) :
    scanChunk (pre ++ ['/', '*', '*']) = (false, pre ++ ['/'], ['*', '*']) := by
  rcases pre with _ | ⟨c, pre'⟩
  · rfl
  · have hc1 : ¬ c = '*' := fun h => h1 (by rw [h]; exact List.mem_cons_self _ _)
    have hstar : ((c :: pre' ++ ['/', '*', '*']).head? == some '*') = false := by
      simp [hc1]
    have hdrop : (c :: pre' ++ ['/', '*', '*']).dropWhile (fun x => x == '*')
        = c :: pre' ++ ['/', '*', '*'] := by
      rw [List.cons_append, List.dropWhile_cons]
      simp [hc1]
    have hbody := scanBody_plain (c :: pre') h1 h3 h4
    unfold scanChunk
    rw [hstar, hdrop]
    simp only [hbody]

/-- One unfolding step of the Match outer loop on a cons pattern. -/
theorem goMatchF_succ_cons (fuel : Nat) (c : Char) (pat name : Str) :
    goMatchF (fuel + 1) (c :: pat) name =
      (let (star, chunk, rest) := scanChunk (c :: pat)
       if star ∧ chunk = [] then .ok (!(name.contains '/'))
       else
         match matchChunk chunk name with
         | .ok (some t) =>
           if t = [] ∨ rest ≠ [] then goMatchF fuel rest t
           else if star then
             match starLoop chunk rest name with
             | .ok (some t') => goMatchF fuel rest t'
             | .ok none => validChunksF (rest.length + 1) rest
             | .error _ => .error ()
           else validChunksF (rest.length + 1) rest
         | .ok none =>
           if star then
             match starLoop chunk rest name with
             | .ok (some t') => goMatchF fuel rest t'
             | .ok none => validChunksF (rest.length + 1) rest
             | .error _ => .error ()
           else validChunksF (rest.length + 1) rest
         | .error _ => .error ()) := rfl

/-- Matching a plain double-star pattern against a name that the literal plus
separator does not lead fails. -/
theorem goMatch_doubleStar_aux (pre name : Str)
    (h1 : '*' ∉ pre) (h2 : '?' ∉ pre) (h3 : '[' ∉ pre) (h4 : '\\' ∉ pre)
    (hpref : (pre ++ ['/']).isPrefixOf name = false) :
    goMatchBool (pre ++ ['/', '*', '*']) name = false := by
  have hm1 : '[' ∉ pre ++ ['/'] := by
    intro h
    rcases List.mem_append.mp h with h | h
    · exact h3 h
    · simp at h
  have hm2 : '?' ∉ pre ++ ['/'] := by
    intro h
    rcases List.mem_append.mp h with h | h
    · exact h2 h
    · simp at h
  have hm3 : '\\' ∉ pre ++ ['/'] := by
    intro h
    rcases List.mem_append.mp h with h | h
    · exact h4 h
    · simp at h
  have hmc : matchChunk (pre ++ ['/']) name = .ok none := by
    unfold matchChunk
    rw [matchChunkF_literal (pre ++ ['/']) ((pre ++ ['/']).length + 1) name
      (Nat.lt_succ_self _) hm1 hm2 hm3]
    rw [hpref]
    rfl
  have hscan := scanChunk_doubleStar pre h1 h3 h4
  rcases hsh : pre ++ ['/', '*', '*'] with _ | ⟨c, pat⟩
  · exact absurd hsh (by simp)
  · rw [hsh] at hscan
    unfold goMatchBool goMatch
    rw [List.length_cons, goMatchF_succ_cons, hscan]
    show (match
        (if false = true ∧ pre ++ ['/'] = ([] : Str) then Except.ok (!(name.contains '/'))
         else
           match matchChunk (pre ++ ['/']) name with
           | .ok (some t) =>
             if t = [] ∨ (['*', '*'] : Str) ≠ [] then goMatchF (pat.length + 1) (['*', '*'] : Str) t
             else if false = true then
               match starLoop (pre ++ ['/']) ['*', '*'] name with
               | .ok (some t') => goMatchF (pat.length + 1) (['*', '*'] : Str) t'
               | .ok none => validChunksF ((['*', '*'] : Str).length + 1) ['*', '*']
               | .error _ => .error ()
             else validChunksF ((['*', '*'] : Str).length + 1) ['*', '*']
           | .ok none =>
             if false = true then
               match starLoop (pre ++ ['/']) ['*', '*'] name with
               | .ok (some t') => goMatchF (pat.length + 1) (['*', '*'] : Str) t'
               | .ok none => validChunksF ((['*', '*'] : Str).length + 1) ['*', '*']
               | .error _ => .error ()
             else validChunksF ((['*', '*'] : Str).length + 1) ['*', '*']
           | .error _ => .error ()) with
      | Except.ok b => b
      | Except.error _ => false) = false
    rw [hmc]
    simp
    rfl

/-- A character of a boolean-prefix is a character of the longer list. -/
theorem mem_of_isPrefixOf {l1 l2 : Str} (h : l1.isPrefixOf l2 = true) :
    ∀ c ∈ l1, c ∈ l2 := by
  intro c hc
  exact (List.isPrefixOf_iff_prefix.mp h).sublist.subset hc

/-- Membership gives a true contains check. -/
theorem contains_of_mem {l : Str} {c : Char} (h : c ∈ l) : l.contains c = true := by
  induction l with
  | nil => cases h
  | cons a l ih =>
    rcases List.mem_cons.mp h with h | h
    · subst h
      simp [List.contains, List.elem_cons]
    · simp [List.contains, List.elem_cons]
      exact Or.inr h

/-- C5 counterexample: the pattern `logs/**` matches `logsfoo`, a path that
merely begins with the characters of the literal without a following separator,
which the claim rules out. -/
theorem doubleStar_matches_unseparated_sibling :
    shouldIgnore [strOf "logs/**"] (strOf "logsfoo") false = true ∧
    ¬ (strOf "logsfoo" = strOf "logs" ∨
       (strOf "logs/").isPrefixOf (strOf "logsfoo") = true) := by
  constructor
  · decide
  · decide

/-- C5 (amended): for a pattern `<literal>/**` whose literal contains no glob
metacharacter, escape or leading negation marker, the matcher matches exactly
the paths that start with the characters of the literal — including `prefix`
itself and `prefix/...` paths, but also any other path whose characters merely
begin with the literal. -/
theorem doubleStar_rule_matches_by_string_start (pre path : Str) (isDir : Bool)
    (hb : pre.head? ≠ some '!') (h1 : '*' ∉ pre) (h2 : '?' ∉ pre) (h3 : '[' ∉ pre)
    (h4 : '\\' ∉ pre) :
    shouldIgnore [pre ++ strOf "/**"] path isDir = pre.isPrefixOf path := by
  have hst : strOf "/**" = ['/', '*', '*'] := rfl
  rw [hst]
  have hhead : ¬ (pre ++ (['/', '*', '*'] : Str)).head? = some '!' := by
    rcases pre with _ | ⟨c, pre'⟩
    · intro h
      simp at h
    · intro h
      apply hb
      simpa using h
  have hlast : (pre ++ (['/', '*', '*'] : Str)).getLast? = some '*' := by
    rw [List.getLast?_append_of_ne_nil pre (by simp)]
    rfl
  have hlastF : ((pre ++ (['/', '*', '*'] : Str)).getLast? = some '/') = False := by
    rw [hlast]
    simp
  have hcontS : (pre ++ (['/', '*', '*'] : Str)).contains '*' = true :=
    contains_of_mem (List.mem_append_right _ (by simp))
  have hcontSl : (pre ++ (['/', '*', '*'] : Str)).contains '/' = true :=
    contains_of_mem (List.mem_append_right _ (by simp))
  have htrim := trimSuffix_doubleStar pre
  have hinfix : hasInfix ['*', '*'] (pre ++ (['/', '*', '*'] : Str)) = true :=
    hasInfix_append ['*', '*'] ['/', '*', '*'] (by decide) pre
  have hgmF : pre ≠ [] → goMatchBool (pre ++ ['/', '*', '*']) (goBase path) = false := by
    intro hne
    rcases goBase_cases path with hb2 | hb2
    · rw [hb2]
      apply goMatch_doubleStar_aux pre ['/'] h1 h2 h3 h4
      cases hpb : (pre ++ (['/'] : Str)).isPrefixOf ['/']
      · rfl
      · exfalso
        have := (List.isPrefixOf_iff_prefix.mp hpb).length_le
        simp at this
        exact hne this
    · apply goMatch_doubleStar_aux pre _ h1 h2 h3 h4
      cases hpb : (pre ++ (['/'] : Str)).isPrefixOf (goBase path)
      · rfl
      · exfalso
        exact hb2 (mem_of_isPrefixOf hpb '/' (List.mem_append_right _ (by simp)))
  by_cases hgm : goMatchBool (pre ++ ['/', '*', '*']) (goBase path) = true
  · have hpre0 : pre = [] := by
      by_contra hne
      rw [hgmF hne] at hgm
      exact absurd hgm (by simp)
    subst hpre0
    have hrhs : (([] : Str).isPrefixOf path) = true := by
      simp [List.isPrefixOf]
    rw [hrhs]
    show shouldIgnoreGo [[] ++ ['/', '*', '*']] path isDir = true
    simp only [List.nil_append] at hgm ⊢
    simp [shouldIgnoreGo, stepRule, hgm]
  · have hgm' : goMatchBool (pre ++ ['/', '*', '*']) (goBase path) = false :=
      Bool.not_eq_true _ ▸ (Bool.eq_false_iff.mpr (fun h => hgm h))
    have hstep : stepRule (pre ++ ['/', '*', '*']) path isDir
        = if pre.isPrefixOf path = true then some true else none := by
      unfold stepRule
      simp only [eq_false hhead, if_false, hlastF, hcontS, hgm', htrim,
        hinfix, hcontSl, decide_False, Bool.not_false, false_and, and_true, true_and,
        and_false, if_true, Bool.false_eq_true, ite_false]
      by_cases hpp : pre.isPrefixOf path = true
      · rw [if_pos hpp]
        have hm2 : (path = pre ++ (['/', '*', '*'] : Str) ∨ pre.isPrefixOf path = true)
            ∨ (pre ++ (['/', '*', '*'] : Str)).isPrefixOf path = true := by
          left
          right
          exact hpp
        simp [hpp]
      · rw [if_neg hpp]
        have hn0 : ¬ path = pre ++ (['/', '*', '*'] : Str) := by
          intro h
          apply hpp
          rw [h]
          exact List.isPrefixOf_iff_prefix.mpr (List.prefix_append pre _)
        have hn2 : ¬ (pre ++ (['/', '*', '*'] : Str)).isPrefixOf path = true := by
          intro h
          apply hpp
          exact List.isPrefixOf_iff_prefix.mpr
            ((List.prefix_append pre _).trans (List.isPrefixOf_iff_prefix.mp h))
        simp [hn0, hn2, hpp]
    show shouldIgnoreGo [pre ++ ['/', '*', '*']] path isDir = pre.isPrefixOf path
    simp only [shouldIgnoreGo, hstep]
    cases hpp : pre.isPrefixOf path
    · simp
    · simp

/-- Witness for C5 at the pattern `logs/**`: the amended rule evaluated at
`logs/2024/a.txt` and at `logsfoo`. -/
theorem doubleStar_rule_matches_by_string_start_witness :
    shouldIgnore [strOf "logs" ++ strOf "/**"] (strOf "logs/2024/a.txt") false
      = (strOf "logs").isPrefixOf (strOf "logs/2024/a.txt") ∧
    shouldIgnore [strOf "logs" ++ strOf "/**"] (strOf "logsfoo") false
      = (strOf "logs").isPrefixOf (strOf "logsfoo") := by
  constructor
  · exact doubleStar_rule_matches_by_string_start (strOf "logs") (strOf "logs/2024/a.txt")
      false (by decide) (by decide) (by decide) (by decide) (by decide)
  · exact doubleStar_rule_matches_by_string_start (strOf "logs") (strOf "logsfoo")
      false (by decide) (by decide) (by decide) (by decide) (by decide)

/-- Entry access below the length is list indexing. -/
theorem entAt_eq_get (es : List TEntry) {i : Nat} (hi : i < es.length) :
    entAt es i = es.get ⟨i, hi⟩ :=
  List.getD_eq_get es _ hi

/-- Distinct paths make path indexing injective. -/
theorem pathAt_inj (es : List TEntry) (hnd : (es.map TEntry.path).Nodup)
    {i j : Nat} (hi : i < es.length) (hj : j < es.length)
    (hp : pathAt es i = pathAt es j) : i = j := by
  have hi' : i < (es.map TEntry.path).length := by simpa using hi
  have hj' : j < (es.map TEntry.path).length := by simpa using hj
  have hp' : (es.get ⟨i, hi⟩).path = (es.get ⟨j, hj⟩).path := by
    have h2 := hp
    unfold pathAt at h2
    rw [entAt_eq_get es hi, entAt_eq_get es hj] at h2
    exact h2
  have hg : (es.map TEntry.path).get ⟨i, hi'⟩ = (es.map TEntry.path).get ⟨j, hj'⟩ := by
    simpa [List.get_map] using hp'
  have := (List.Nodup.get_inj_iff hnd).mp hg
  simpa using congrArg Fin.val this

/-- Assignment with a fresh key appends. -/
theorem mapInsert_fresh (m : List (List String × Nat)) (k : List String) (v : Nat)
    (h : ∀ kv ∈ m, kv.1 ≠ k) : mapInsert m k v = m ++ [(k, v)] := by
  unfold mapInsert
  rw [if_neg]
  intro hc
  rw [List.any_eq_true] at hc
  obtain ⟨kv, hkv, he⟩ := hc
  exact h kv hkv (of_decide_eq_true he)

/-- With distinct paths the directory map is the plain list of directory pairs. -/
theorem dirMapGo_eq (es0 : List TEntry) :
    ∀ (i : Nat) (m : List (List String × Nat)),
      (es0.map TEntry.path).Nodup →
      (∀ kv ∈ m, ∀ e ∈ es0, e.isDir = true → kv.1 ≠ e.path) →
      dirMapGo es0 i m = m ++ dirPairs es0 i := by
  induction es0 with
  | nil => intro i m _ _; simp [dirMapGo, dirPairs]
  | cons e rest ih =>
    intro i m hnd hdis
    have hnd' : (rest.map TEntry.path).Nodup := by
      rw [List.map_cons] at hnd
      exact hnd.of_cons
    have hhd : e.path ∉ rest.map TEntry.path := by
      rw [List.map_cons] at hnd
      exact (List.nodup_cons.mp hnd).1
    cases hd : e.isDir
    · show dirMapGo rest (i + 1) (if e.isDir then mapInsert m e.path i else m)
        = m ++ dirPairs (e :: rest) i
      rw [hd]
      simp only [if_false, Bool.false_eq_true]
      rw [ih (i + 1) m hnd' (fun kv hkv e' he' => hdis kv hkv e' (List.mem_cons_of_mem _ he'))]
      simp [dirPairs, hd]
    · show dirMapGo rest (i + 1) (if e.isDir then mapInsert m e.path i else m)
        = m ++ dirPairs (e :: rest) i
      rw [hd]
      simp only [if_true]
      rw [mapInsert_fresh m e.path i
        (fun kv hkv => hdis kv hkv e (List.mem_cons_self _ _) hd)]
      rw [ih (i + 1) (m ++ [(e.path, i)]) hnd' ?_]
      · simp [dirPairs, hd]
      · intro kv hkv e' he' hd'
        rcases List.mem_append.mp hkv with hkv | hkv
        · exact hdis kv hkv e' (List.mem_cons_of_mem _ he') hd'
        · simp at hkv
          subst hkv
          intro hcontra
          apply hhd
          rw [show e.path = e'.path from hcontra]
          exact List.mem_map_of_mem TEntry.path he' 

/-- Members of the directory-pairs list are directory entries at their index. -/
theorem mem_dirPairs {es0 : List TEntry} :
    ∀ {i k p}, (k, p) ∈ dirPairs es0 i →
      ∃ e, i ≤ p ∧ es0.get? (p - i) = some e ∧ e.isDir = true ∧ e.path = k := by
  induction es0 with
  | nil => intro i k p h; simp [dirPairs] at h
  | cons e rest ih =>
    intro i k p h
    unfold dirPairs at h
    rcases List.mem_append.mp h with h | h
    · cases hd : e.isDir
      · rw [hd] at h
        simp at h
      · rw [hd] at h
        simp at h
        obtain ⟨hk, hp⟩ := h
        refine ⟨e, by omega, ?_, hd, hk.symm⟩
        rw [hp]
        simp
    · obtain ⟨e', hle, hget, hdir, hpath⟩ := ih h
      refine ⟨e', by omega, ?_, hdir, hpath⟩
      have h1 : p - i = (p - (i + 1)) + 1 := by omega
      rw [h1]
      simpa using hget

/-- Every directory entry appears in the directory-pairs list. -/
theorem dirPairs_mem_of_get {es0 : List TEntry} :
    ∀ {j i : Nat} {e : TEntry}, es0.get? j = some e → e.isDir = true →
      (e.path, i + j) ∈ dirPairs es0 i := by
  induction es0 with
  | nil => intro j i e h _; simp at h
  | cons e0 rest ih =>
    intro j i e hget hd
    rcases j with _ | j'
    · simp at hget
      subst hget
      unfold dirPairs
      rw [hd]
      simp
    · have := ih (i := i + 1) (by simpa using hget) hd
      unfold dirPairs
      refine List.mem_append_right _ ?_
      have h1 : i + (j' + 1) = (i + 1) + j' := by omega
      rw [h1]
      exact this

/-- Keys of the directory pairs are the paths of the directory entries. -/
theorem dirPairs_keys : ∀ (es0 : List TEntry) (i : Nat),
    (dirPairs es0 i).map Prod.fst = (es0.filter (fun e => e.isDir)).map TEntry.path := by
  intro es0
  induction es0 with
  | nil => intro i; simp [dirPairs]
  | cons e rest ih =>
    intro i
    unfold dirPairs
    cases hd : e.isDir
    · simp [hd, ih (i + 1), List.filter_cons]
    · simp [hd, ih (i + 1), List.filter_cons]

/-- With distinct paths, the directory-map keys are distinct. -/
theorem dirPairs_keys_nodup (es0 : List TEntry) (hnd : (es0.map TEntry.path).Nodup)
    (i : Nat) : ((dirPairs es0 i).map Prod.fst).Nodup := by
  rw [dirPairs_keys]
  exact hnd.sublist (List.Sublist.map TEntry.path (List.filter_sublist es0))

/-- Lookup with distinct keys is membership. -/
theorem lookup_iff_mem (m : List (List String × Nat))
    (hk : (m.map Prod.fst).Nodup) (k : List String) (v : Nat) :
    m.lookup k = some v ↔ (k, v) ∈ m := by
  induction m with
  | nil => simp [List.lookup]
  | cons kv m ih =>
    obtain ⟨k', v'⟩ := kv
    rw [List.map_cons] at hk
    by_cases hk' : k = k'
    · subst hk'
      rw [List.lookup_cons]
      simp only [beq_self_eq_true]
      constructor
      · intro h
        simp at h
        subst h
        exact List.mem_cons_self _ _
      · intro h
        rcases List.mem_cons.mp h with h | h
        · have h2 : v = v' := by simpa using congrArg Prod.snd h
          rw [h2]
        · exfalso
          exact (List.nodup_cons.mp (by simpa using hk)).1
            (List.mem_map_of_mem Prod.fst h)
    · rw [List.lookup_cons]
      have : (k == k') = false := by
        simp [hk']
      rw [this]
      rw [ih (List.nodup_cons.mp hk).2]
      constructor
      · intro h
        exact List.mem_cons_of_mem _ h
      · intro h
        rcases List.mem_cons.mp h with h | h
        · exfalso
          apply hk'
          simpa using congrArg Prod.fst h
        · exact h

/-- The directory map is the directory-pairs list when paths are distinct. -/
theorem dirMapOf_eq (es : List TEntry) (hnd : (es.map TEntry.path).Nodup) :
    dirMapOf es = dirPairs es 0 := by
  have := dirMapGo_eq es 0 [] hnd (by simp)
  simpa [dirMapOf] using this

/-- Characterization of directory-map lookup under distinct paths. -/
theorem dirMap_lookup (es : List TEntry) (hnd : (es.map TEntry.path).Nodup)
    (q : List String) (p : Nat) :
    (dirMapOf es).lookup q = some p ↔
      ∃ e, es.get? p = some e ∧ e.isDir = true ∧ e.path = q := by
  rw [dirMapOf_eq es hnd, lookup_iff_mem _ (dirPairs_keys_nodup es hnd 0)]
  constructor
  · intro h
    obtain ⟨e, _, hg, hd, hp⟩ := mem_dirPairs h
    exact ⟨e, by simpa using hg, hd, hp⟩
  · intro h
    obtain ⟨e, hg, hd, hp⟩ := h
    subst hp
    simpa using dirPairs_mem_of_get (i := 0) hg hd

/-- The second pass appends its roots and edges to the accumulator. -/
theorem pass2_eq : ∀ (es0 : List TEntry) (i : Nat) (dm : List (List String × Nat))
    (acc : List Nat × List (Nat × Nat)),
    pass2 es0 i dm acc = (acc.1 ++ rootsF es0 i dm, acc.2 ++ edgesF es0 i dm) := by
  intro es0
  induction es0 with
  | nil => intro i dm acc; simp [pass2, rootsF, edgesF]
  | cons e rest ih =>
    intro i dm acc
    cases hd : e.isDir
    · rcases hl : dm.lookup (dirOf e.path) with _ | p <;>
        simp [pass2, rootsF, edgesF, hd, hl, ih, List.append_assoc]
    · simp [pass2, rootsF, edgesF, hd, ih, List.append_assoc]

/-- Count of an index in the second-pass root list. -/
theorem rootsF_count : ∀ (es0 : List TEntry) (i : Nat) (dm : List (List String × Nat))
    (j : Nat), List.count j (rootsF es0 i dm)
      = if i ≤ j ∧ isRoot2 es0 dm (j - i) = true then 1 else 0 := by
  intro es0
  induction es0 with
  | nil =>
    intro i dm j
    rw [if_neg]
    · rfl
    · rintro ⟨_, hr⟩
      simp [isRoot2] at hr
  | cons e rest ih =>
    intro i dm j
    unfold rootsF
    rw [List.count_append, ih (i + 1) dm j]
    by_cases hij : j = i
    · subst hij
      have h2 : ¬ (j + 1 ≤ j ∧ isRoot2 rest dm (j - (j + 1)) = true) := by
        rintro ⟨h, _⟩
        omega
      rw [if_neg h2]
      cases hd : e.isDir
      · rcases hl : dm.lookup (dirOf e.path) with _ | p
        · have hcond : j ≤ j ∧ isRoot2 (e :: rest) dm (j - j) = true :=
            ⟨Nat.le_refl j, by simp [isRoot2, hd, hl]⟩
          rw [if_pos hcond]
          simp [hd, hl]
        · have hcond : ¬ (j ≤ j ∧ isRoot2 (e :: rest) dm (j - j) = true) := by
            rintro ⟨_, hr⟩
            simp [isRoot2, hd, hl] at hr
          rw [if_neg hcond]
          simp [hd, hl]
      · have hcond : ¬ (j ≤ j ∧ isRoot2 (e :: rest) dm (j - j) = true) := by
          rintro ⟨_, hr⟩
          simp [isRoot2, hd] at hr
        rw [if_neg hcond]
        simp [hd]
    · have hblock : List.count j
          (if e.isDir = true then []
           else
             match dm.lookup (dirOf e.path) with
             | some _ => []
             | none => [i]) = 0 := by
        cases hd : e.isDir
        · rcases hl : dm.lookup (dirOf e.path) with _ | p <;> simp [hd, hl, Ne.symm, hij]
        · simp
      rw [hblock]
      by_cases hlt : i + 1 ≤ j
      · have h1 : (i + 1 ≤ j ∧ isRoot2 rest dm (j - (i + 1)) = true)
            ↔ (i ≤ j ∧ isRoot2 (e :: rest) dm (j - i) = true) := by
          constructor
          · rintro ⟨h, hr⟩
            refine ⟨by omega, ?_⟩
            have : j - i = (j - (i + 1)) + 1 := by omega
            rw [this]
            simpa [isRoot2] using hr
          · rintro ⟨h, hr⟩
            refine ⟨hlt, ?_⟩
            have : j - i = (j - (i + 1)) + 1 := by omega
            rw [this] at hr
            simpa [isRoot2] using hr
        rw [if_congr h1 rfl rfl]
        omega
      · have hn1 : ¬ (i + 1 ≤ j ∧ isRoot2 rest dm (j - (i + 1)) = true) := by
          rintro ⟨h, _⟩
          omega
        have hn2 : ¬ (i ≤ j ∧ isRoot2 (e :: rest) dm (j - i) = true) := by
          rintro ⟨h, _⟩
          omega
        rw [if_neg hn1, if_neg hn2]

/-- Count of an edge in the second-pass edge list. -/
theorem edgesF_count : ∀ (es0 : List TEntry) (i : Nat) (dm : List (List String × Nat))
    (p j : Nat), List.count (p, j) (edgesF es0 i dm)
      = if i ≤ j ∧ edgeTgt2 es0 dm (j - i) = some p then 1 else 0 := by
  intro es0
  induction es0 with
  | nil =>
    intro i dm p j
    rw [if_neg]
    · rfl
    · rintro ⟨_, hr⟩
      simp [edgeTgt2] at hr
  | cons e rest ih =>
    intro i dm p j
    unfold edgesF
    rw [List.count_append, ih (i + 1) dm p j]
    by_cases hij : j = i
    · subst hij
      have h2 : ¬ (j + 1 ≤ j ∧ edgeTgt2 rest dm (j - (j + 1)) = some p) := by
        rintro ⟨h, _⟩
        omega
      rw [if_neg h2]
      cases hd : e.isDir
      · rcases hl : dm.lookup (dirOf e.path) with _ | q
        · have hcond : ¬ (j ≤ j ∧ edgeTgt2 (e :: rest) dm (j - j) = some p) := by
            rintro ⟨_, hr⟩
            simp [edgeTgt2, hd, hl] at hr
          rw [if_neg hcond]
          simp [hd, hl]
        · by_cases hq : q = p
          · subst hq
            have hcond : j ≤ j ∧ edgeTgt2 (e :: rest) dm (j - j) = some q :=
              ⟨Nat.le_refl j, by simp [edgeTgt2, hd, hl]⟩
            rw [if_pos hcond]
            simp [hd, hl]
          · have hcond : ¬ (j ≤ j ∧ edgeTgt2 (e :: rest) dm (j - j) = some p) := by
              rintro ⟨_, hr⟩
              simp [edgeTgt2, hd, hl] at hr
              exact hq hr
            rw [if_neg hcond]
            simp only [hd, hl, Bool.false_eq_true, if_false]
            rw [List.count_cons]
            simp [hq]
      · have hcond : ¬ (j ≤ j ∧ edgeTgt2 (e :: rest) dm (j - j) = some p) := by
          rintro ⟨_, hr⟩
          simp [edgeTgt2, hd] at hr
        rw [if_neg hcond]
        simp [hd]
    · have hblock : List.count (p, j)
          (if e.isDir = true then []
           else
             match dm.lookup (dirOf e.path) with
             | some q => [(q, i)]
             | none => []) = 0 := by
        cases hd : e.isDir
        · rcases hl : dm.lookup (dirOf e.path) with _ | q
          · simp [hd, hl]
          · simp [hd, hl, Prod.ext_iff, Ne.symm, hij]
        · simp
      rw [hblock]
      by_cases hlt : i + 1 ≤ j
      · have h1 : (i + 1 ≤ j ∧ edgeTgt2 rest dm (j - (i + 1)) = some p)
            ↔ (i ≤ j ∧ edgeTgt2 (e :: rest) dm (j - i) = some p) := by
          constructor
          · rintro ⟨h, hr⟩
            refine ⟨by omega, ?_⟩
            have : j - i = (j - (i + 1)) + 1 := by omega
            rw [this]
            simpa [edgeTgt2] using hr
          · rintro ⟨h, hr⟩
            refine ⟨hlt, ?_⟩
            have : j - i = (j - (i + 1)) + 1 := by omega
            rw [this] at hr
            simpa [edgeTgt2] using hr
        rw [if_congr h1 rfl rfl]
        omega
      · have hn1 : ¬ (i + 1 ≤ j ∧ edgeTgt2 rest dm (j - (i + 1)) = some p) := by
          rintro ⟨h, _⟩
          omega
        have hn2 : ¬ (i ≤ j ∧ edgeTgt2 (e :: rest) dm (j - i) = some p) := by
          rintro ⟨h, _⟩
          omega
        rw [if_neg hn1, if_neg hn2]

/-- One-step equation for `pass3` on a cons cell. -/
theorem pass3_cons (es : List TEntry) (dm : List (List String × Nat))
    (k : List String) (d : Nat) (rest : List (List String × Nat))
    (acc : List Nat × List (Nat × Nat)) :
    pass3 es dm ((k, d) :: rest) acc
      = pass3 es dm rest
          (if acc.1.any (fun r => pathAt es r = k) then acc
           else if dirOf k = k ∨ dirOf k = [] then (acc.1 ++ [d], acc.2)
           else
             match dm.lookup (dirOf k) with
             | some p =>
               if pathAt es p ≠ k then (acc.1, acc.2 ++ [(p, d)]) else (acc.1 ++ [d], acc.2)
             | none => (acc.1 ++ [d], acc.2)) := rfl

/-- One-step equation for `roots3F` on a cons cell. -/
theorem roots3F_cons (es : List TEntry) (full : List (List String × Nat))
    (k : List String) (d : Nat) (rest : List (List String × Nat)) :
    roots3F es full ((k, d) :: rest)
      = (if dirOf k = k ∨ dirOf k = [] then [d]
         else
           match full.lookup (dirOf k) with
           | some p => if pathAt es p ≠ k then [] else [d]
           | none => [d]) ++ roots3F es full rest := rfl

/-- One-step equation for `edges3F` on a cons cell. -/
theorem edges3F_cons (es : List TEntry) (full : List (List String × Nat))
    (k : List String) (d : Nat) (rest : List (List String × Nat)) :
    edges3F es full ((k, d) :: rest)
      = (if dirOf k = k ∨ dirOf k = [] then []
         else
           match full.lookup (dirOf k) with
           | some p => if pathAt es p ≠ k then [(p, d)] else []
           | none => []) ++ edges3F es full rest := rfl

/-- The third pass appends its roots and edges when no root item collides with a
pending key, keys are distinct, and map values carry their key as path. -/
theorem pass3_eq (es : List TEntry) (full : List (List String × Nat)) :
    ∀ (dml : List (List String × Nat)) (acc : List Nat × List (Nat × Nat)),
      (∀ r ∈ acc.1, ∀ kv ∈ dml, pathAt es r ≠ kv.1) →
      (∀ kv ∈ dml, pathAt es kv.2 = kv.1) →
      ((dml.map Prod.fst).Nodup) →
      pass3 es full dml acc = (acc.1 ++ roots3F es full dml, acc.2 ++ edges3F es full dml) := by
  intro dml
  induction dml with
  | nil => intro acc _ _ _; simp [pass3, roots3F, edges3F]
  | cons kv rest ih =>
    obtain ⟨k, d⟩ := kv
    intro acc hroot hvals hkeys
    have hany : (acc.1.any fun r => decide (pathAt es r = k)) = false := by
      rw [List.any_eq_false]
      intro r hr
      simpa using hroot r hr (k, d) (List.mem_cons_self _ _)
    have hvald : pathAt es d = k := hvals (k, d) (List.mem_cons_self _ _)
    have hknotin : k ∉ rest.map Prod.fst := by
      rw [List.map_cons] at hkeys
      exact (List.nodup_cons.mp hkeys).1
    have hkeys' : (rest.map Prod.fst).Nodup := by
      rw [List.map_cons] at hkeys
      exact (List.nodup_cons.mp hkeys).2
    have hvals' : ∀ kv ∈ rest, pathAt es kv.2 = kv.1 :=
      fun kv hkv => hvals kv (List.mem_cons_of_mem _ hkv)
    have hrootd : ∀ kv ∈ rest, pathAt es d ≠ kv.1 := by
      intro kv hkv hcontra
      apply hknotin
      rw [← hvald, hcontra]
      exact List.mem_map_of_mem Prod.fst hkv
    rw [pass3_cons, hany, roots3F_cons, edges3F_cons]
    simp only [Bool.false_eq_true, if_false]
    by_cases hg : dirOf k = k ∨ dirOf k = []
    · rw [if_pos hg, if_pos hg, if_pos hg]
      rw [ih (acc.1 ++ [d], acc.2) ?_ hvals' hkeys']
      · simp [List.append_assoc]
      · intro r hr kv hkv
        rcases List.mem_append.mp hr with hr | hr
        · exact hroot r hr kv (List.mem_cons_of_mem _ hkv)
        · simp at hr
          subst hr
          exact hrootd kv hkv
    · rw [if_neg hg, if_neg hg, if_neg hg]
      rcases hl : full.lookup (dirOf k) with _ | p
      · rw [ih (acc.1 ++ [d], acc.2) ?_ hvals' hkeys']
        · simp [List.append_assoc]
        · intro r hr kv hkv
          rcases List.mem_append.mp hr with hr | hr
          · exact hroot r hr kv (List.mem_cons_of_mem _ hkv)
          · simp at hr
            subst hr
            exact hrootd kv hkv
      · by_cases hpk : pathAt es p ≠ k
        · rw [ih _ ?_ hvals' hkeys']
          · simp [hpk, List.append_assoc]
          · intro r hr kv hkv
            simp only [hpk, ne_eq, not_false_iff, if_true, ite_true] at hr
            exact hroot r hr kv (List.mem_cons_of_mem _ hkv)
        · rw [not_not] at hpk
          rw [ih _ ?_ hvals' hkeys']
          · simp [hpk, List.append_assoc]
          · intro r hr kv hkv
            simp only [hpk, ne_eq, not_true_eq_false, if_false, ite_false] at hr
            rcases List.mem_append.mp hr with hr | hr
            · exact hroot r hr kv (List.mem_cons_of_mem _ hkv)
            · simp at hr
              subst hr
              exact hrootd kv hkv

/-- Count of an index in the third-pass root list. -/
theorem roots3F_count (es : List TEntry) (full : List (List String × Nat)) :
    ∀ (dml : List (List String × Nat)) (d : Nat),
      ((dml.map Prod.snd).Nodup) →
      (∀ kv ∈ dml, pathAt es kv.2 = kv.1) →
      List.count d (roots3F es full dml)
        = if (pathAt es d, d) ∈ dml ∧ root3cond es full (pathAt es d) = true then 1
          else 0 := by
  intro dml
  induction dml with
  | nil =>
    intro d _ _
    simp [roots3F]
  | cons kv rest ih =>
    obtain ⟨k, d0⟩ := kv
    intro d hvn hvals
    have hvald : pathAt es d0 = k := hvals (k, d0) (List.mem_cons_self _ _)
    have hvn' : (rest.map Prod.snd).Nodup := by
      rw [List.map_cons] at hvn
      exact (List.nodup_cons.mp hvn).2
    have hd0notin : d0 ∉ rest.map Prod.snd := by
      rw [List.map_cons] at hvn
      exact (List.nodup_cons.mp hvn).1
    have hvals' : ∀ kv ∈ rest, pathAt es kv.2 = kv.1 :=
      fun kv hkv => hvals kv (List.mem_cons_of_mem _ hkv)
    have hblock : (if dirOf k = k ∨ dirOf k = [] then [d0]
        else
          match full.lookup (dirOf k) with
          | some p => if pathAt es p ≠ k then [] else [d0]
          | none => [d0])
        = if root3cond es full k = true then [d0] else ([] : List Nat) := by
      unfold root3cond
      by_cases hg : dirOf k = k ∨ dirOf k = []
      · simp [hg]
      · rcases hl : full.lookup (dirOf k) with _ | p
        · simp [hg, hl]
        · by_cases hpk : pathAt es p = k
          · simp [hg, hl, hpk]
          · simp [hg, hl, hpk]
    rw [roots3F_cons, hblock, List.count_append, ih d hvn' hvals']
    by_cases hdd : d = d0
    · subst hdd
      have hnotin : ¬ ((pathAt es d, d) ∈ rest ∧ root3cond es full (pathAt es d) = true) := by
        rintro ⟨hmem, _⟩
        exact hd0notin (List.mem_map_of_mem Prod.snd hmem)
      rw [if_neg hnotin]
      by_cases hc : root3cond es full k = true
      · have hcond : (pathAt es d, d) ∈ (k, d) :: rest ∧
            root3cond es full (pathAt es d) = true :=
          ⟨by rw [hvald]; exact List.mem_cons_self _ _, by rw [hvald]; exact hc⟩
        rw [if_pos hcond]
        simp [hc]
      · have hcond : ¬ ((pathAt es d, d) ∈ (k, d) :: rest ∧
            root3cond es full (pathAt es d) = true) := by
          rintro ⟨hmem, hcond⟩
          rcases List.mem_cons.mp hmem with hmem | hmem
          · apply hc
            rw [show pathAt es d = k from by simpa using congrArg Prod.fst hmem] at hcond
            exact hcond
          · exact hd0notin (List.mem_map_of_mem Prod.snd hmem)
        rw [if_neg hcond]
        simp [hc]
    · have hblk0 : List.count d (if root3cond es full k = true then [d0] else ([] : List Nat)) = 0 := by
        by_cases hc : root3cond es full k = true <;> simp [hc, hdd]
      rw [hblk0]
      have hiff : ((pathAt es d, d) ∈ rest ∧ root3cond es full (pathAt es d) = true)
          ↔ ((pathAt es d, d) ∈ (k, d0) :: rest ∧ root3cond es full (pathAt es d) = true) := by
        constructor
        · rintro ⟨hmem, hc⟩
          exact ⟨List.mem_cons_of_mem _ hmem, hc⟩
        · rintro ⟨hmem, hc⟩
          rcases List.mem_cons.mp hmem with hmem | hmem
          · exact absurd (by simpa using congrArg Prod.snd hmem) hdd
          · exact ⟨hmem, hc⟩
      rw [if_congr hiff rfl rfl]
      omega

/-- Count of an edge in the third-pass edge list. -/
theorem edges3F_count (es : List TEntry) (full : List (List String × Nat)) :
    ∀ (dml : List (List String × Nat)) (p d : Nat),
      ((dml.map Prod.snd).Nodup) →
      (∀ kv ∈ dml, pathAt es kv.2 = kv.1) →
      List.count (p, d) (edges3F es full dml)
        = if (pathAt es d, d) ∈ dml ∧ edge3Tgt es full (pathAt es d) = some p then 1
          else 0 := by
  intro dml
  induction dml with
  | nil =>
    intro p d _ _
    simp [edges3F]
  | cons kv rest ih =>
    obtain ⟨k, d0⟩ := kv
    intro p d hvn hvals
    have hvald : pathAt es d0 = k := hvals (k, d0) (List.mem_cons_self _ _)
    have hvn' : (rest.map Prod.snd).Nodup := by
      rw [List.map_cons] at hvn
      exact (List.nodup_cons.mp hvn).2
    have hd0notin : d0 ∉ rest.map Prod.snd := by
      rw [List.map_cons] at hvn
      exact (List.nodup_cons.mp hvn).1
    have hvals' : ∀ kv ∈ rest, pathAt es kv.2 = kv.1 :=
      fun kv hkv => hvals kv (List.mem_cons_of_mem _ hkv)
    have hblock : (if dirOf k = k ∨ dirOf k = [] then ([] : List (Nat × Nat))
        else
          match full.lookup (dirOf k) with
          | some q => if pathAt es q ≠ k then [(q, d0)] else []
          | none => [])
        = match edge3Tgt es full k with
          | some q => [(q, d0)]
          | none => ([] : List (Nat × Nat)) := by
      unfold edge3Tgt
      by_cases hg : dirOf k = k ∨ dirOf k = []
      · simp [hg]
      · rcases hl : full.lookup (dirOf k) with _ | q
        · simp [hg, hl]
        · by_cases hpk : pathAt es q ≠ k
          · simp [hg, hl, hpk]
          · simp [hg, hl, hpk]
    rw [edges3F_cons, hblock, List.count_append, ih p d hvn' hvals']
    by_cases hdd : d = d0
    · subst hdd
      have hnotin : ¬ ((pathAt es d, d) ∈ rest ∧ edge3Tgt es full (pathAt es d) = some p) := by
        rintro ⟨hmem, _⟩
        exact hd0notin (List.mem_map_of_mem Prod.snd hmem)
      rw [if_neg hnotin]
      rcases ht : edge3Tgt es full k with _ | q
      · have hcond : ¬ ((pathAt es d, d) ∈ (k, d) :: rest ∧
            edge3Tgt es full (pathAt es d) = some p) := by
          rintro ⟨hmem, hcond⟩
          rcases List.mem_cons.mp hmem with hmem | hmem
          · rw [show pathAt es d = k from by simpa using congrArg Prod.fst hmem] at hcond
            rw [ht] at hcond
            cases hcond
          · exact hd0notin (List.mem_map_of_mem Prod.snd hmem)
        rw [if_neg hcond]
        simp [ht]
      · by_cases hqp : q = p
        · have hcond : (pathAt es d, d) ∈ (k, d) :: rest ∧
              edge3Tgt es full (pathAt es d) = some p :=
            ⟨by rw [hvald]; exact List.mem_cons_self _ _, by rw [hvald, ht, hqp]⟩
          rw [if_pos hcond]
          simp [List.count_cons, hqp]
        · have hcond : ¬ ((pathAt es d, d) ∈ (k, d) :: rest ∧
              edge3Tgt es full (pathAt es d) = some p) := by
            rintro ⟨hmem, hcond⟩
            rcases List.mem_cons.mp hmem with hmem | hmem
            · rw [show pathAt es d = k from by simpa using congrArg Prod.fst hmem] at hcond
              rw [ht] at hcond
              simp at hcond
              exact hqp hcond
            · exact hd0notin (List.mem_map_of_mem Prod.snd hmem)
          rw [if_neg hcond]
          simp [List.count_cons, Ne.symm hqp]
    · have hblk0 : List.count (p, d) (match edge3Tgt es full k with
          | some q => [(q, d0)]
          | none => ([] : List (Nat × Nat))) = 0 := by
        rcases ht : edge3Tgt es full k with _ | q
        · simp
        · rw [List.count_cons]
          simp [hdd]
          omega
      rw [hblk0]
      have hiff : ((pathAt es d, d) ∈ rest ∧ edge3Tgt es full (pathAt es d) = some p)
          ↔ ((pathAt es d, d) ∈ (k, d0) :: rest ∧ edge3Tgt es full (pathAt es d) = some p) := by
        constructor
        · rintro ⟨hmem, hc⟩
          exact ⟨List.mem_cons_of_mem _ hmem, hc⟩
        · rintro ⟨hmem, hc⟩
          rcases List.mem_cons.mp hmem with hmem | hmem
          · exact absurd (by simpa using congrArg Prod.snd hmem) hdd
          · exact ⟨hmem, hc⟩
      rw [if_congr hiff rfl rfl]
      omega

/-- An index that resolves through `get?` is read back by `entAt`. -/
theorem entAt_of_get (es : List TEntry) {i : Nat} {e : TEntry}
    (h : es.get? i = some e) : entAt es i = e := by
  obtain ⟨hi, he⟩ := List.get?_eq_some.mp h
  rw [entAt_eq_get es hi]
  exact he

/-- Every directory pair records an in-range directory index carrying its key
as path. -/
theorem dirPairs_prop (es : List TEntry) {k : List String} {p : Nat}
    (h : (k, p) ∈ dirPairs es 0) :
    p < es.length ∧ dirAt es p = true ∧ pathAt es p = k := by
  obtain ⟨e, _, hg, hd, hp⟩ := mem_dirPairs h
  rw [Nat.sub_zero] at hg
  have hlt : p < es.length := by
    rcases List.get?_eq_some.mp hg with ⟨hl, _⟩
    exact hl
  have he : entAt es p = e := entAt_of_get es hg
  refine ⟨hlt, ?_, ?_⟩
  · unfold dirAt
    rw [he, hd]
  · unfold pathAt
    rw [he, hp]

/-- Every in-range directory index appears among the directory pairs. -/
theorem dirPairs_of_dirAt (es : List TEntry) {p : Nat} (hp : p < es.length)
    (hd : dirAt es p = true) : (pathAt es p, p) ∈ dirPairs es 0 := by
  have hg : es.get? p = some (es.get ⟨p, hp⟩) := List.get?_eq_get hp
  have hd' : (es.get ⟨p, hp⟩).isDir = true := by
    unfold dirAt at hd
    rw [entAt_eq_get es hp] at hd
    exact hd
  have h := dirPairs_mem_of_get (i := 0) hg hd'
  have hpath : (es.get ⟨p, hp⟩).path = pathAt es p := by
    unfold pathAt
    rw [entAt_eq_get es hp]
  rw [hpath] at h
  simpa using h

/-- The values of the directory pairs are the directory indices. -/
theorem dirPairs_vals : ∀ (es0 : List TEntry) (i : Nat),
    (dirPairs es0 i).map Prod.snd = dirIdxs es0 i := by
  intro es0
  induction es0 with
  | nil => intro i; simp [dirPairs, dirIdxs]
  | cons e rest ih =>
    intro i
    unfold dirPairs dirIdxs
    cases hd : e.isDir <;> simp [hd, ih (i + 1)]

/-- Directory indices are bounded below by the running counter. -/
theorem dirIdxs_ge : ∀ (es0 : List TEntry) (i x : Nat), x ∈ dirIdxs es0 i → i ≤ x := by
  intro es0
  induction es0 with
  | nil => intro i x h; simp [dirIdxs] at h
  | cons e rest ih =>
    intro i x h
    unfold dirIdxs at h
    rcases List.mem_append.mp h with h | h
    · cases hd : e.isDir
      · rw [hd] at h; simp at h
      · rw [hd] at h; simp at h; omega
    · have := ih (i + 1) x h
      omega

/-- The directory indices are distinct. -/
theorem dirIdxs_nodup : ∀ (es0 : List TEntry) (i : Nat), (dirIdxs es0 i).Nodup := by
  intro es0
  induction es0 with
  | nil => intro i; simp [dirIdxs]
  | cons e rest ih =>
    intro i
    unfold dirIdxs
    cases hd : e.isDir
    · simpa using ih (i + 1)
    · have hni : i ∉ dirIdxs rest (i + 1) := by
        intro hc
        have := dirIdxs_ge rest (i + 1) i hc
        omega
      simp [hni, ih (i + 1)]

/-- The directory-pair values are distinct. -/
theorem dirPairs_vals_nodup (es : List TEntry) (i : Nat) :
    ((dirPairs es i).map Prod.snd).Nodup := by
  rw [dirPairs_vals]
  exact dirIdxs_nodup es i

/-- Every value of the directory map carries its key as its path. -/
theorem dirMap_vals (es : List TEntry) (hnd : (es.map TEntry.path).Nodup) :
    ∀ kv ∈ dirMapOf es, pathAt es kv.2 = kv.1 := by
  intro kv hkv
  rw [dirMapOf_eq es hnd] at hkv
  obtain ⟨k, p⟩ := kv
  exact (dirPairs_prop es hkv).2.2

/-- The pair of an index with its own path sits in the directory map exactly
when the index is an in-range directory. -/
theorem dirMap_pair_mem (es : List TEntry) (hnd : (es.map TEntry.path).Nodup)
    (d : Nat) :
    (pathAt es d, d) ∈ dirMapOf es ↔ d < es.length ∧ dirAt es d = true := by
  rw [dirMapOf_eq es hnd]
  constructor
  · intro h
    exact ⟨(dirPairs_prop es h).1, (dirPairs_prop es h).2.1⟩
  · rintro ⟨hlt, hd⟩
    exact dirPairs_of_dirAt es hlt hd

/-- Membership in the directory indices characterized. -/
theorem mem_dirIdxs (es : List TEntry) (p : Nat) :
    p ∈ dirIdxs es 0 ↔ p < es.length ∧ dirAt es p = true := by
  rw [← dirPairs_vals]
  constructor
  · intro h
    obtain ⟨kv, hkv, hsnd⟩ := List.mem_map.mp h
    obtain ⟨k, p'⟩ := kv
    cases hsnd
    exact ⟨(dirPairs_prop es hkv).1, (dirPairs_prop es hkv).2.1⟩
  · rintro ⟨hlt, hd⟩
    exact List.mem_map_of_mem Prod.snd (dirPairs_of_dirAt es hlt hd)

/-- For a file index, placement is the parent lookup. -/
theorem placeOf_file (es : List TEntry) {j : Nat} (hd : dirAt es j = false) :
    placeOf es j = (dirMapOf es).lookup (dirOf (pathAt es j)) := by
  unfold placeOf
  rw [hd]
  simp

/-- For a directory index, placement is the third-pass edge target of its path. -/
theorem placeOf_dir (es : List TEntry) {j : Nat} (hd : dirAt es j = true) :
    placeOf es j = edge3Tgt es (dirMapOf es) (pathAt es j) := by
  unfold placeOf edge3Tgt
  rw [hd]
  simp

/-- The third-pass root condition holds exactly when the edge target is empty. -/
theorem root3cond_iff (es : List TEntry) (full : List (List String × Nat))
    (k : List String) :
    root3cond es full k = true ↔ edge3Tgt es full k = none := by
  unfold root3cond edge3Tgt
  by_cases hg : dirOf k = k ∨ dirOf k = []
  · simp [hg]
  · rcases hl : full.lookup (dirOf k) with _ | p
    · simp [hg, hl]
    · by_cases hp : pathAt es p = k
      · simp [hg, hl, hp]
      · simp [hg, hl, hp]

/-- Unpacking a third-pass edge target. -/
theorem edge3Tgt_some (es : List TEntry) (full : List (List String × Nat))
    {k : List String} {p : Nat} (h : edge3Tgt es full k = some p) :
    ¬ (dirOf k = k ∨ dirOf k = []) ∧ full.lookup (dirOf k) = some p ∧
      pathAt es p ≠ k := by
  unfold edge3Tgt at h
  by_cases hg : dirOf k = k ∨ dirOf k = []
  · rw [if_pos hg] at h
    cases h
  · rw [if_neg hg] at h
    rcases hl : full.lookup (dirOf k) with _ | q
    · rw [hl] at h
      simp at h
    · rw [hl] at h
      by_cases hp : pathAt es q ≠ k
      · simp [hp] at h
        subst h
        exact ⟨hg, rfl, hp⟩
      · simp [hp] at h

/-- An in-range index with a `true` second-pass root flag is a file whose
parent lookup is empty. -/
theorem isRoot2_elim {es0 : List TEntry} {dm : List (List String × Nat)} {j : Nat}
    (h : isRoot2 es0 dm j = true) :
    ∃ e, es0.get? j = some e ∧ e.isDir = false ∧
      (dm.lookup (dirOf e.path)).isNone = true := by
  unfold isRoot2 at h
  rcases hg : es0.get? j with _ | e
  · rw [hg] at h
    cases h
  · rw [hg] at h
    rw [Bool.and_eq_true] at h
    refine ⟨e, rfl, ?_, h.2⟩
    rcases hd : e.isDir
    · rfl
    · rw [hd] at h
      simp at h

/-- Membership in the second-pass root list forces the root flag. -/
theorem mem_rootsF {es0 : List TEntry} {dm : List (List String × Nat)}
    {i r : Nat} (h : r ∈ rootsF es0 i dm) :
    i ≤ r ∧ isRoot2 es0 dm (r - i) = true := by
  have hpos : 0 < List.count r (rootsF es0 i dm) := List.count_pos_iff.mpr h
  rw [rootsF_count es0 i dm r] at hpos
  by_cases hcond : i ≤ r ∧ isRoot2 es0 dm (r - i) = true
  · exact hcond
  · rw [if_neg hcond] at hpos
    omega

/-- With distinct paths the two build passes append their root and edge
contributions to the empty accumulator. -/
theorem acc3_eq (es : List TEntry) (hnd : (es.map TEntry.path).Nodup) :
    pass3 es (dirMapOf es) (dirMapOf es) (pass2 es 0 (dirMapOf es) ([], []))
      = (rootsF es 0 (dirMapOf es) ++ roots3F es (dirMapOf es) (dirMapOf es),
         edgesF es 0 (dirMapOf es) ++ edges3F es (dirMapOf es) (dirMapOf es)) := by
  have hkeys : ((dirMapOf es).map Prod.fst).Nodup := by
    rw [dirMapOf_eq es hnd]
    exact dirPairs_keys_nodup es hnd 0
  have hvals : ∀ kv ∈ dirMapOf es, pathAt es kv.2 = kv.1 := dirMap_vals es hnd
  rw [pass2_eq]
  have hroot : ∀ r ∈ (([], ([] : List (Nat × Nat))).1 ++ rootsF es 0 (dirMapOf es)),
      ∀ kv ∈ dirMapOf es, pathAt es r ≠ kv.1 := by
    intro r hr kv hkv hceq
    rw [List.nil_append] at hr
    obtain ⟨_, hr2⟩ := mem_rootsF hr
    rw [Nat.sub_zero] at hr2
    obtain ⟨e, hge, hfe, _⟩ := isRoot2_elim hr2
    have hrn : r < es.length := by
      rcases List.get?_eq_some.mp hge with ⟨hl, _⟩
      exact hl
    rw [dirMapOf_eq es hnd] at hkv
    obtain ⟨k, p⟩ := kv
    obtain ⟨hpn, hpd, hpp⟩ := dirPairs_prop es hkv
    have hrp : r = p := pathAt_inj es hnd hrn hpn (by rw [hceq]; exact hpp.symm)
    have : dirAt es r = false := by
      unfold dirAt
      rw [entAt_of_get es hge]
      exact hfe
    rw [hrp, hpd] at this
    cases this
  rw [pass3_eq es (dirMapOf es) (dirMapOf es) _ hroot hvals hkeys]
  simp

/-- The second-pass root flag at an in-range index, in terms of the arena
readers. -/
theorem isRoot2_in (es0 : List TEntry) (dm : List (List String × Nat)) {j : Nat}
    (hj : j < es0.length) :
    isRoot2 es0 dm j
      = (!dirAt es0 j && (dm.lookup (dirOf (pathAt es0 j))).isNone) := by
  unfold isRoot2 dirAt pathAt
  rw [List.get?_eq_get hj, entAt_eq_get es0 hj]

/-- The second-pass edge target at an in-range index, in terms of the arena
readers. -/
theorem edgeTgt2_in (es0 : List TEntry) (dm : List (List String × Nat)) {j : Nat}
    (hj : j < es0.length) :
    edgeTgt2 es0 dm j
      = if dirAt es0 j = true then none else dm.lookup (dirOf (pathAt es0 j)) := by
  unfold edgeTgt2 dirAt pathAt
  rw [List.get?_eq_get hj, entAt_eq_get es0 hj]

/-- A placed entry hangs under an in-range directory whose path is the parent
path, one segment shorter. -/
theorem place_sound (es : List TEntry) (hnd : (es.map TEntry.path).Nodup)
    {j p : Nat} (hj : j < es.length) (h : placeOf es j = some p) :
    p < es.length ∧ dirAt es p = true ∧ pathAt es p = dirOf (pathAt es j) ∧
      pathAt es j ≠ [] ∧ rankAt es p + 1 = rankAt es j := by
  have core : es.get? p = some (entAt es p) → (entAt es p).isDir = true →
      (entAt es p).path = dirOf (pathAt es j) → pathAt es j ≠ [] →
      p < es.length ∧ dirAt es p = true ∧ pathAt es p = dirOf (pathAt es j) ∧
        pathAt es j ≠ [] ∧ rankAt es p + 1 = rankAt es j := by
    intro hge hed hep hne
    have hpn : p < es.length := by
      obtain ⟨hl, _⟩ := List.get?_eq_some.mp hge
      exact hl
    refine ⟨hpn, hed, hep, hne, ?_⟩
    have hr : rankAt es p = (pathAt es j).length - 1 := by
      show (pathAt es p).length = _
      have hPP : pathAt es p = dirOf (pathAt es j) := hep
      rw [hPP]
      exact List.length_dropLast _
    have hlen : (pathAt es j).length ≠ 0 := fun h0 => hne (List.eq_nil_of_length_eq_zero h0)
    have hrj : rankAt es j = (pathAt es j).length := rfl
    rw [hr, hrj]
    omega
  rcases hd : dirAt es j
  · rw [placeOf_file es hd] at h
    rw [dirMap_lookup es hnd] at h
    obtain ⟨e, hge, hed, hep⟩ := h
    have hpa : entAt es p = e := entAt_of_get es hge
    have hne : pathAt es j ≠ [] := by
      intro hnil
      have hpp : pathAt es p = pathAt es j := by
        have h1 : pathAt es p = dirOf (pathAt es j) := by
          show (entAt es p).path = _
          rw [hpa]
          exact hep
        rw [h1, hnil]
        rfl
      have hpn : p < es.length := by
        obtain ⟨hl, _⟩ := List.get?_eq_some.mp hge
        exact hl
      have heq := pathAt_inj es hnd hpn hj hpp
      have hdp : dirAt es p = true := by
        unfold dirAt
        rw [hpa]
        exact hed
      rw [heq, hd] at hdp
      cases hdp
    exact core (by rw [hpa]; exact hge) (by rw [hpa]; exact hed)
      (by rw [hpa]; exact hep) hne
  · rw [placeOf_dir es hd] at h
    obtain ⟨hg, hl, _⟩ := edge3Tgt_some es _ h
    rw [dirMap_lookup es hnd] at hl
    obtain ⟨e, hge, hed, hep⟩ := hl
    have hpa : entAt es p = e := entAt_of_get es hge
    have hne : pathAt es j ≠ [] := by
      intro hnil
      apply hg
      right
      rw [hnil]
      rfl
    exact core (by rw [hpa]; exact hge) (by rw [hpa]; exact hed)
      (by rw [hpa]; exact hep) hne

/-- The accumulated root list holds an index once when the build places it at
the root and never otherwise. -/
theorem acc3_root_count (es : List TEntry) (hnd : (es.map TEntry.path).Nodup)
    (j : Nat) :
    List.count j (rootsF es 0 (dirMapOf es) ++ roots3F es (dirMapOf es) (dirMapOf es))
      = if j < es.length ∧ placeOf es j = none then 1 else 0 := by
  have hvn : ((dirMapOf es).map Prod.snd).Nodup := by
    rw [dirMapOf_eq es hnd]
    exact dirPairs_vals_nodup es 0
  have hvals := dirMap_vals es hnd
  rw [List.count_append, rootsF_count es 0 (dirMapOf es) j,
      roots3F_count es (dirMapOf es) (dirMapOf es) j hvn hvals]
  by_cases hj : j < es.length
  · rcases hd : dirAt es j
    · have hmem : ¬ ((pathAt es j, j) ∈ dirMapOf es ∧
          root3cond es (dirMapOf es) (pathAt es j) = true) := by
        rintro ⟨hm, _⟩
        have hx := ((dirMap_pair_mem es hnd j).mp hm).2
        rw [hd] at hx
        cases hx
      rw [if_neg hmem]
      have hzero : (0 ≤ j ∧ isRoot2 es (dirMapOf es) (j - 0) = true) ↔
          placeOf es j = none := by
        rw [Nat.sub_zero, isRoot2_in es (dirMapOf es) hj, hd,
          placeOf_file es hd]
        simp [Option.isNone_iff_eq_none]
      by_cases hpl : placeOf es j = none
      · rw [if_pos (hzero.mpr hpl), if_pos ⟨hj, hpl⟩]
      · rw [if_neg (fun hA => hpl (hzero.mp hA)), if_neg (fun hC => hpl hC.2)]
    · have hA0 : ¬ (0 ≤ j ∧ isRoot2 es (dirMapOf es) (j - 0) = true) := by
        rintro ⟨_, hr⟩
        rw [Nat.sub_zero, isRoot2_in es (dirMapOf es) hj, hd] at hr
        simp at hr
      rw [if_neg hA0]
      have hB : (pathAt es j, j) ∈ dirMapOf es := (dirMap_pair_mem es hnd j).mpr ⟨hj, hd⟩
      have hiff : root3cond es (dirMapOf es) (pathAt es j) = true ↔
          placeOf es j = none := by
        rw [root3cond_iff, placeOf_dir es hd]
      by_cases hpl : placeOf es j = none
      · rw [if_pos ⟨hB, hiff.mpr hpl⟩, if_pos ⟨hj, hpl⟩]
      · rw [if_neg (fun hBC => hpl (hiff.mp hBC.2)), if_neg (fun hC => hpl hC.2)]
  · have hA0 : ¬ (0 ≤ j ∧ isRoot2 es (dirMapOf es) (j - 0) = true) := by
      rintro ⟨_, hr⟩
      rw [Nat.sub_zero] at hr
      unfold isRoot2 at hr
      rw [List.get?_eq_none.mpr (Nat.le_of_not_lt hj)] at hr
      cases hr
    have hB0 : ¬ ((pathAt es j, j) ∈ dirMapOf es ∧
        root3cond es (dirMapOf es) (pathAt es j) = true) := by
      rintro ⟨hm, _⟩
      exact hj ((dirMap_pair_mem es hnd j).mp hm).1
    rw [if_neg hA0, if_neg hB0, if_neg (fun hC => hj hC.1)]

/-- The accumulated edge list holds a parent-child pair once when the build
places the child under that parent and never otherwise. -/
theorem acc3_edge_count (es : List TEntry) (hnd : (es.map TEntry.path).Nodup)
    (p j : Nat) :
    List.count (p, j) (edgesF es 0 (dirMapOf es) ++ edges3F es (dirMapOf es) (dirMapOf es))
      = if j < es.length ∧ placeOf es j = some p then 1 else 0 := by
  have hvn : ((dirMapOf es).map Prod.snd).Nodup := by
    rw [dirMapOf_eq es hnd]
    exact dirPairs_vals_nodup es 0
  have hvals := dirMap_vals es hnd
  rw [List.count_append, edgesF_count es 0 (dirMapOf es) p j,
      edges3F_count es (dirMapOf es) (dirMapOf es) p j hvn hvals]
  by_cases hj : j < es.length
  · rcases hd : dirAt es j
    · have hmem : ¬ ((pathAt es j, j) ∈ dirMapOf es ∧
          edge3Tgt es (dirMapOf es) (pathAt es j) = some p) := by
        rintro ⟨hm, _⟩
        have hx := ((dirMap_pair_mem es hnd j).mp hm).2
        rw [hd] at hx
        cases hx
      rw [if_neg hmem]
      have hzero : (0 ≤ j ∧ edgeTgt2 es (dirMapOf es) (j - 0) = some p) ↔
          placeOf es j = some p := by
        rw [Nat.sub_zero, edgeTgt2_in es (dirMapOf es) hj, hd,
          placeOf_file es hd]
        simp
      by_cases hpl : placeOf es j = some p
      · rw [if_pos (hzero.mpr hpl), if_pos ⟨hj, hpl⟩]
      · rw [if_neg (fun hA => hpl (hzero.mp hA)), if_neg (fun hC => hpl hC.2)]
    · have hA0 : ¬ (0 ≤ j ∧ edgeTgt2 es (dirMapOf es) (j - 0) = some p) := by
        rintro ⟨_, hr⟩
        rw [Nat.sub_zero, edgeTgt2_in es (dirMapOf es) hj, hd] at hr
        simp at hr
      rw [if_neg hA0]
      have hB : (pathAt es j, j) ∈ dirMapOf es := (dirMap_pair_mem es hnd j).mpr ⟨hj, hd⟩
      have hiff : edge3Tgt es (dirMapOf es) (pathAt es j) = some p ↔
          placeOf es j = some p := by
        rw [placeOf_dir es hd]
      by_cases hpl : placeOf es j = some p
      · rw [if_pos ⟨hB, hiff.mpr hpl⟩, if_pos ⟨hj, hpl⟩]
      · rw [if_neg (fun hBC => hpl (hiff.mp hBC.2)), if_neg (fun hC => hpl hC.2)]
  · have hA0 : ¬ (0 ≤ j ∧ edgeTgt2 es (dirMapOf es) (j - 0) = some p) := by
      rintro ⟨_, hr⟩
      rw [Nat.sub_zero] at hr
      unfold edgeTgt2 at hr
      rw [List.get?_eq_none.mpr (Nat.le_of_not_lt hj)] at hr
      cases hr
    have hB0 : ¬ ((pathAt es j, j) ∈ dirMapOf es ∧
        edge3Tgt es (dirMapOf es) (pathAt es j) = some p) := by
      rintro ⟨hm, _⟩
      exact hj ((dirMap_pair_mem es hnd j).mp hm).1
    rw [if_neg hA0, if_neg hB0, if_neg (fun hC => hj hC.1)]

/-- One-step equation for the fueled ancestry test. -/
theorem ancB_succ (es : List TEntry) (f i j : Nat) :
    ancB es (f + 1) i j
      = (i == j ||
          match placeOf es j with
          | some p => ancB es f i p
          | none => false) := rfl

/-- Every index is its own ancestor at any fuel. -/
theorem ancB_self (es : List TEntry) : ∀ (f i : Nat), ancB es f i i = true := by
  intro f i
  cases f with
  | zero => simp [ancB]
  | succ f => rw [ancB_succ]; simp

/-- Ancestry is monotone in the fuel. -/
theorem ancB_mono (es : List TEntry) :
    ∀ (f f' i j : Nat), f ≤ f' → ancB es f i j = true → ancB es f' i j = true := by
  intro f
  induction f with
  | zero =>
    intro f' i j _ h
    have : i = j := by simpa [ancB] using h
    subst this
    exact ancB_self es f' i
  | succ f ih =>
    intro f' i j hle h
    rw [ancB_succ] at h
    rcases Bool.or_eq_true_iff.mp h with h | h
    · have : i = j := by simpa using h
      subst this
      exact ancB_self es f' i
    · rcases hpl : placeOf es j with _ | p
      · rw [hpl] at h
        cases h
      · rw [hpl] at h
        obtain ⟨f'', rfl⟩ : ∃ f'', f' = f'' + 1 := ⟨f' - 1, by omega⟩
        rw [ancB_succ, hpl]
        have := ih f'' i p (by omega) h
        simp [this]

/-- A strict ancestor has strictly smaller rank and is in range. -/
theorem ancB_rank (es : List TEntry) (hnd : (es.map TEntry.path).Nodup) :
    ∀ (f j i : Nat), j < es.length → ancB es f i j = true →
      i = j ∨ (i < es.length ∧ rankAt es i < rankAt es j) := by
  intro f
  induction f with
  | zero =>
    intro j i _ h
    left
    simpa [ancB] using h
  | succ f ih =>
    intro j i hj h
    rw [ancB_succ] at h
    rcases Bool.or_eq_true_iff.mp h with h | h
    · left
      simpa using h
    · rcases hpl : placeOf es j with _ | p
      · rw [hpl] at h
        cases h
      · rw [hpl] at h
        obtain ⟨hpn, _, _, _, hrank⟩ := place_sound es hnd hj hpl
        rcases ih p i hpn h with h' | h'
        · right
          subst h'
          exact ⟨hpn, by omega⟩
        · right
          exact ⟨h'.1, by omega⟩

/-- Two ancestors of the same node with equal ranks coincide. -/
theorem ancB_unique_rank (es : List TEntry) (hnd : (es.map TEntry.path).Nodup) :
    ∀ (f1 f2 j a b : Nat), j < es.length → ancB es f1 a j = true →
      ancB es f2 b j = true → rankAt es a = rankAt es b → a = b := by
  intro f1
  induction f1 with
  | zero =>
    intro f2 j a b hj ha hb hr
    have haj : a = j := by simpa [ancB] using ha
    subst haj
    rcases ancB_rank es hnd f2 a b hj hb with h | h
    · exact h.symm
    · omega
  | succ f1 ih =>
    intro f2 j a b hj ha hb hr
    rw [ancB_succ] at ha
    rcases Bool.or_eq_true_iff.mp ha with ha' | ha'
    · have haj : a = j := by simpa using ha'
      subst haj
      rcases ancB_rank es hnd f2 a b hj hb with h | h
      · exact h.symm
      · omega
    · rcases hpl : placeOf es j with _ | p
      · rw [hpl] at ha'
        cases ha'
      · rw [hpl] at ha'
        obtain ⟨hpn, _, _, _, hrank⟩ := place_sound es hnd hj hpl
        cases f2 with
        | zero =>
          have hbj : b = j := by simpa [ancB] using hb
          subst hbj
          rcases ancB_rank es hnd (f1 + 1) b a hj ha with h | h
          · exact h
          · omega
        | succ f2 =>
          rw [ancB_succ] at hb
          rcases Bool.or_eq_true_iff.mp hb with hb' | hb'
          · have hbj : b = j := by simpa using hb'
            subst hbj
            rcases ancB_rank es hnd (f1 + 1) b a hj ha with h | h
            · exact h
            · omega
          · rw [hpl] at hb'
            exact ih f2 p a b hpn ha' hb' hr

/-- Two ancestors of the same node are comparable. -/
theorem ancB_comparable (es : List TEntry) (hnd : (es.map TEntry.path).Nodup) :
    ∀ (f1 f2 j a b : Nat), j < es.length → ancB es f1 a j = true →
      ancB es f2 b j = true →
      (∃ g, ancB es g a b = true) ∨ (∃ g, ancB es g b a = true) := by
  intro f1
  induction f1 with
  | zero =>
    intro f2 j a b _ ha hb
    have haj : a = j := by simpa [ancB] using ha
    subst haj
    right
    exact ⟨f2, hb⟩
  | succ f1 ih =>
    intro f2 j a b hj ha hb
    rw [ancB_succ] at ha
    rcases Bool.or_eq_true_iff.mp ha with ha' | ha'
    · have haj : a = j := by simpa using ha'
      subst haj
      right
      exact ⟨f2, hb⟩
    · rcases hpl : placeOf es j with _ | p
      · rw [hpl] at ha'
        cases ha'
      · rw [hpl] at ha'
        obtain ⟨hpn, _, _, _, _⟩ := place_sound es hnd hj hpl
        cases f2 with
        | zero =>
          have hbj : b = j := by simpa [ancB] using hb
          subst hbj
          have ha2 : ancB es f1 a p = true := ha'
          left
          refine ⟨f1 + 1, ?_⟩
          rw [ancB_succ, hpl]
          simp [ha2]
        | succ f2 =>
          rw [ancB_succ] at hb
          rcases Bool.or_eq_true_iff.mp hb with hb' | hb'
          · have hbj : b = j := by simpa using hb'
            subst hbj
            have ha2 : ancB es f1 a p = true := ha'
            left
            refine ⟨f1 + 1, ?_⟩
            rw [ancB_succ, hpl]
            simp [ha2]
          · rw [hpl] at hb'
            exact ih f2 p a b hpn ha' hb'

/-- A strict ancestor forces a placement step at the bottom node. -/
theorem ancB_ne_step (es : List TEntry) :
    ∀ (g a b : Nat), ancB es g a b = true → a ≠ b → ∃ p, placeOf es b = some p := by
  intro g a b h hne
  cases g with
  | zero =>
    have : a = b := by simpa [ancB] using h
    exact absurd this hne
  | succ g =>
    rw [ancB_succ] at h
    rcases Bool.or_eq_true_iff.mp h with h | h
    · exact absurd (by simpa using h) hne
    · rcases hpl : placeOf es b with _ | p
      · rw [hpl] at h
        cases h
      · exact ⟨p, rfl⟩

/-- Two root ancestors of the same node coincide. -/
theorem root_anc_unique (es : List TEntry) (hnd : (es.map TEntry.path).Nodup)
    {f1 f2 j r1 r2 : Nat} (hj : j < es.length)
    (h1 : ancB es f1 r1 j = true) (h2 : ancB es f2 r2 j = true)
    (hp1 : placeOf es r1 = none) (hp2 : placeOf es r2 = none) : r1 = r2 := by
  by_cases he : r1 = r2
  · exact he
  · rcases ancB_comparable es hnd f1 f2 j r1 r2 hj h1 h2 with ⟨g, hg⟩ | ⟨g, hg⟩
    · obtain ⟨p, hp⟩ := ancB_ne_step es g r1 r2 hg he
      rw [hp2] at hp
      cases hp
    · obtain ⟨p, hp⟩ := ancB_ne_step es g r2 r1 hg (fun h => he h.symm)
      rw [hp1] at hp
      cases hp

/-- A list of distinct naturals below a bound is no longer than the bound. -/
theorem nodup_lt_length_le (L : List Nat) (n : Nat) (hnd : L.Nodup)
    (hb : ∀ x ∈ L, x < n) : L.length ≤ n := by
  have hsub : L ⊆ List.range n := fun x hx => List.mem_range.mpr (hb x hx)
  have := List.Subperm.length_le (List.subperm_of_subset hnd hsub)
  simpa using this

/-- Every in-range node has a root ancestor, reachable within fuel bounded by
its rank; the visited chain is recorded to bound its length. -/
theorem root_exists_aux (es : List TEntry) (hnd : (es.map TEntry.path).Nodup) :
    ∀ (R j : Nat), rankAt es j ≤ R → j < es.length →
      ∃ (r s : Nat) (L : List Nat), r < es.length ∧ placeOf es r = none ∧ ancB es s r j = true ∧
        L.Nodup ∧ (∀ x ∈ L, x < es.length ∧ rankAt es x ≤ rankAt es j) ∧
        L.length = s + 1 := by
  intro R
  induction R with
  | zero =>
    intro j hR hj
    rcases hpl : placeOf es j with _ | p
    · exact ⟨j, 0, [j], hj, hpl, by simp [ancB], by simp,
        by intro x hx; simp at hx; subst hx; exact ⟨hj, le_refl _⟩, rfl⟩
    · obtain ⟨_, _, _, _, hrank⟩ := place_sound es hnd hj hpl
      omega
  | succ R ih =>
    intro j hR hj
    rcases hpl : placeOf es j with _ | p
    · exact ⟨j, 0, [j], hj, hpl, by simp [ancB], by simp,
        by intro x hx; simp at hx; subst hx; exact ⟨hj, le_refl _⟩, rfl⟩
    · obtain ⟨hpn, _, _, _, hrank⟩ := place_sound es hnd hj hpl
      obtain ⟨r, s, L, hr, hplr, hanc, hLnd, hLb, hLl⟩ := ih p (by omega) hpn
      refine ⟨r, s + 1, j :: L, hr, hplr, ?_, ?_, ?_, by simp [hLl]⟩
      · rw [ancB_succ, hpl]
        simp [hanc]
      · rw [List.nodup_cons]
        refine ⟨?_, hLnd⟩
        intro hc
        have := (hLb j hc).2
        omega
      · intro x hx
        rcases List.mem_cons.mp hx with hx | hx
        · subst hx
          exact ⟨hj, le_refl _⟩
        · exact ⟨(hLb x hx).1, by have := (hLb x hx).2; omega⟩

/-- Every in-range node has a root ancestor within fuel the length of the
entry list. -/
theorem root_exists (es : List TEntry) (hnd : (es.map TEntry.path).Nodup)
    {j : Nat} (hj : j < es.length) :
    ∃ r, r < es.length ∧ placeOf es r = none ∧
      ancB es es.length r j = true := by
  obtain ⟨r, s, L, hr, hplr, hanc, hLnd, hLb, hLl⟩ :=
    root_exists_aux es hnd (rankAt es j) j (le_refl _) hj
  have hlen : L.length ≤ es.length :=
    nodup_lt_length_le L es.length hLnd (fun x hx => (hLb x hx).1)
  exact ⟨r, hr, hplr, ancB_mono es s es.length r j (by omega) hanc⟩

/-- With distinct paths the fallback never fires: the build result is the
accumulated roots and edges of the two passes. -/
theorem buildResult_eq (es : List TEntry) (hnd : (es.map TEntry.path).Nodup) :
    buildResult es
      = (rootsF es 0 (dirMapOf es) ++ roots3F es (dirMapOf es) (dirMapOf es),
         edgesF es 0 (dirMapOf es) ++ edges3F es (dirMapOf es) (dirMapOf es)) := by
  unfold buildResult
  simp only [acc3_eq es hnd]
  by_cases hn : 0 < es.length
  · obtain ⟨r, hr, hplr, _⟩ := root_exists es hnd hn
    have hcnt : List.count r
        (rootsF es 0 (dirMapOf es) ++ roots3F es (dirMapOf es) (dirMapOf es)) = 1 := by
      rw [acc3_root_count es hnd r, if_pos ⟨hr, hplr⟩]
    have hmem : r ∈ rootsF es 0 (dirMapOf es) ++ roots3F es (dirMapOf es) (dirMapOf es) :=
      List.count_pos_iff.mp (by omega)
    have hnonnil := List.ne_nil_of_mem hmem
    rw [if_neg]
    rintro ⟨hemp, _⟩
    exact hnonnil (List.isEmpty_iff.mp hemp)
  · rw [if_neg (fun h => hn h.2)]

/-- The built root list holds an index once when it is placed at the root. -/
theorem buildRoot_count (es : List TEntry) (hnd : (es.map TEntry.path).Nodup)
    (j : Nat) :
    List.count j (buildResult es).1
      = if j < es.length ∧ placeOf es j = none then 1 else 0 := by
  rw [buildResult_eq es hnd]
  exact acc3_root_count es hnd j

/-- The built edge list holds a pair once when the child is placed under the
parent. -/
theorem buildEdge_count (es : List TEntry) (hnd : (es.map TEntry.path).Nodup)
    (p j : Nat) :
    List.count (p, j) (buildResult es).2
      = if j < es.length ∧ placeOf es j = some p then 1 else 0 := by
  rw [buildResult_eq es hnd]
  exact acc3_edge_count es hnd p j

/-- Counting a child in a node's child list counts the edge. -/
theorem count_childrenOf (edges : List (Nat × Nat)) (i c : Nat) :
    List.count c (childrenOf edges i) = List.count (i, c) edges := by
  induction edges with
  | nil => rfl
  | cons pr rest ih =>
    obtain ⟨a, b⟩ := pr
    unfold childrenOf
    unfold childrenOf at ih
    rw [List.filter_cons]
    by_cases ha : a = i
    · subst ha
      rw [if_pos (by simp)]
      rw [List.map_cons, List.count_cons, List.count_cons, ih]
      simp [Prod.ext_iff]
    · rw [if_neg (by simp [ha])]
      rw [List.count_cons, ih]
      simp only [beq_iff_eq]
      rw [if_neg (fun h : (a, b) = (i, c) => ha (congrArg Prod.fst h))]
      omega

/-- Inserting into the sibling order is a permutation of consing. -/
theorem insertSib_perm (es : List TEntry) (x : Nat) :
    ∀ l, (insertSib es x l).Perm (x :: l) := by
  intro l
  induction l with
  | nil => exact List.Perm.refl _
  | cons y ys ih =>
    unfold insertSib
    by_cases h : sibLess es y x = true
    · rw [if_pos h]
      exact (ih.cons y).trans (List.Perm.swap x y ys)
    · rw [if_neg h]

/-- The sibling sort permutes its input. -/
theorem sortSib_perm (es : List TEntry) : ∀ l, (sortSib es l).Perm l := by
  intro l
  induction l with
  | nil => exact List.Perm.refl _
  | cons x xs ih =>
    exact (insertSib_perm es x (sortSib es xs)).trans (ih.cons x)

/-- The sibling sort preserves counts. -/
theorem sortSib_count (es : List TEntry) (l : List Nat) (a : Nat) :
    List.count a (sortSib es l) = List.count a l :=
  (sortSib_perm es l).count_eq a

/-- Counting over a flat map is the sum of the member counts. -/
theorem count_flatMap (g : Nat → List Nat) (a : Nat) :
    ∀ l : List Nat,
      List.count a (l.flatMap g) = (l.map (fun x => List.count a (g x))).sum := by
  intro l
  induction l with
  | nil => rfl
  | cons x xs ih =>
    rw [List.flatMap_cons, List.count_append, List.map_cons, List.sum_cons, ih]

/-- Exhausted fuel flattens every start to nothing. -/
theorem flatMap_dfs_zero (es : List TEntry) (E : List (Nat × Nat)) :
    ∀ L : List Nat, L.flatMap (dfsIdx es E 0) = [] := by
  intro L
  induction L with
  | nil => rfl
  | cons x xs ih =>
    rw [List.flatMap_cons, ih]
    rfl

/-- A sum of indicators over a duplicate-free list with at most one hit. -/
theorem count_sum_unique (P : Nat → Bool) :
    ∀ l : List Nat, l.Nodup →
      (∀ x ∈ l, ∀ y ∈ l, P x = true → P y = true → x = y) →
      (l.map (fun x => if P x = true then 1 else 0)).sum
        = if ∃ x ∈ l, P x = true then 1 else 0 := by
  intro l
  induction l with
  | nil => intro _ _; simp
  | cons x xs ih =>
    intro hnd huniq
    rw [List.nodup_cons] at hnd
    rw [List.map_cons, List.sum_cons]
    by_cases hx : P x = true
    · have hxs : ∀ y ∈ xs, ¬ P y = true := by
        intro y hy hPy
        have hxy := huniq x (List.mem_cons_self _ _) y (List.mem_cons_of_mem _ hy) hx hPy
        exact hnd.1 (hxy ▸ hy)
      have hsum0 : (xs.map (fun x => if P x = true then 1 else 0)).sum = 0 := by
        apply List.sum_eq_zero
        intro v hv
        obtain ⟨y, hy, hvy⟩ := List.mem_map.mp hv
        rw [← hvy, if_neg (hxs y hy)]
      rw [if_pos hx, hsum0, if_pos ⟨x, List.mem_cons_self _ _, hx⟩]
    · rw [if_neg hx, Nat.zero_add]
      rw [ih hnd.2 (fun a ha b hb => huniq a (List.mem_cons_of_mem _ ha)
        b (List.mem_cons_of_mem _ hb))]
      by_cases hex : ∃ y ∈ xs, P y = true
      · obtain ⟨y, hy, hPy⟩ := hex
        rw [if_pos ⟨y, hy, hPy⟩, if_pos ⟨y, List.mem_cons_of_mem _ hy, hPy⟩]
      · rw [if_neg hex, if_neg ?_]
        rintro ⟨y, hy, hPy⟩
        rcases List.mem_cons.mp hy with hy | hy
        · subst hy
          exact hx hPy
        · exact hex ⟨y, hy, hPy⟩

/-- Ancestry decomposed at the top of the chain. -/
theorem ancB_top_step (es : List TEntry) :
    ∀ (fuel i j : Nat),
      ancB es (fuel + 1) i j = true ↔
        i = j ∨ ∃ c, placeOf es c = some i ∧ ancB es fuel c j = true := by
  intro fuel
  induction fuel with
  | zero =>
    intro i j
    rw [ancB_succ]
    constructor
    · intro h
      rcases Bool.or_eq_true_iff.mp h with h | h
      · left
        simpa using h
      · rcases hpl : placeOf es j with _ | p
        · rw [hpl] at h
          cases h
        · rw [hpl] at h
          have hip : i = p := by simpa [ancB] using h
          right
          exact ⟨j, by rw [hpl, hip], by simp [ancB]⟩
    · intro h
      rcases h with h | ⟨c, hc, hcj⟩
      · simp [h]
      · have hcj' : c = j := by simpa [ancB] using hcj
        subst hcj'
        rw [hc]
        have : ancB es 0 i i = true := ancB_self es 0 i
        simp [this]
  | succ fuel ih =>
    intro i j
    rw [ancB_succ]
    constructor
    · intro h
      rcases Bool.or_eq_true_iff.mp h with h | h
      · left
        simpa using h
      · rcases hpl : placeOf es j with _ | p
        · rw [hpl] at h
          cases h
        · rw [hpl] at h
          rcases (ih i p).mp h with h' | ⟨c, hc, hcp⟩
          · right
            refine ⟨j, by rw [hpl, h'], ancB_self es _ j⟩
          · right
            refine ⟨c, hc, ?_⟩
            rw [ancB_succ, hpl]
            simp [hcp]
    · intro h
      rcases h with h | ⟨c, hc, hcj⟩
      · simp [h]
      · rw [ancB_succ] at hcj
        rcases Bool.or_eq_true_iff.mp hcj with h' | h'
        · have : c = j := by simpa using h'
          subst this
          rw [hc]
          have hstep : ancB es (fuel + 1) i i = true := ancB_self es _ i
          simp [hstep]
        · rcases hpl : placeOf es j with _ | p
          · rw [hpl] at h'
            cases h'
          · rw [hpl] at h'
            have : ancB es (fuel + 1) i p = true :=
              (ih i p).mpr (Or.inr ⟨c, hc, h'⟩)
            simp [this]

/-- Membership in a sorted child list characterized by placement. -/
theorem mem_children_sorted (es : List TEntry) (hnd : (es.map TEntry.path).Nodup)
    (i c : Nat) :
    c ∈ sortSib es (childrenOf (buildResult es).2 i) ↔
      c < es.length ∧ placeOf es c = some i := by
  rw [← List.count_pos_iff, sortSib_count, count_childrenOf,
    buildEdge_count es hnd i c]
  by_cases h : c < es.length ∧ placeOf es c = some i
  · simp [h]
  · simp [h]

/-- Sorted child lists are duplicate-free. -/
theorem children_sorted_nodup (es : List TEntry) (hnd : (es.map TEntry.path).Nodup)
    (i : Nat) : (sortSib es (childrenOf (buildResult es).2 i)).Nodup := by
  rw [List.nodup_iff_count_le_one]
  intro c
  rw [sortSib_count, count_childrenOf, buildEdge_count es hnd i c]
  by_cases h : c < es.length ∧ placeOf es c = some i
  · simp [h]
  · simp [h]

/-- Every node reached by the fueled DFS is the start or an in-range child. -/
theorem mem_dfsIdx (es : List TEntry) (hnd : (es.map TEntry.path).Nodup) :
    ∀ (f i x : Nat), x ∈ dfsIdx es (buildResult es).2 f i →
      x = i ∨ x < es.length := by
  intro f
  induction f with
  | zero =>
    intro i x hx
    simp [dfsIdx] at hx
  | succ f ih =>
    intro i x hx
    have hstep : dfsIdx es (buildResult es).2 (f + 1) i
        = i :: (sortSib es (childrenOf (buildResult es).2 i)).flatMap
            (dfsIdx es (buildResult es).2 f) := rfl
    rw [hstep] at hx
    rcases List.mem_cons.mp hx with hx | hx
    · left
      exact hx
    · obtain ⟨c, hc, hx⟩ := List.mem_flatMap.mp hx
      have hcn : c < es.length := ((mem_children_sorted es hnd i c).mp hc).1
      rcases ih c x hx with h | h
      · right
        rw [h]
        exact hcn
      · right
        exact h

/-- The fueled DFS from any start visits an in-range node once exactly when the
start is an ancestor of it within the fuel. -/
theorem dfs_count (es : List TEntry) (hnd : (es.map TEntry.path).Nodup) :
    ∀ (fuel j i : Nat), j < es.length →
      List.count j (dfsIdx es (buildResult es).2 (fuel + 1) i)
        = if ancB es fuel i j = true then 1 else 0 := by
  intro fuel
  induction fuel with
  | zero =>
    intro j i hj
    have hdfs : dfsIdx es (buildResult es).2 1 i = [i] := by
      show (i :: (sortSib es (childrenOf (buildResult es).2 i)).flatMap
        (dfsIdx es (buildResult es).2 0)) = [i]
      rw [flatMap_dfs_zero]
    rw [hdfs]
    by_cases hij : i = j
    · subst hij
      simp [List.count_cons, ancB]
    · have h1 : (i == j) = false := by simp [hij]
      have h2 : (j == i) = false := by simp [Ne.symm hij]
      simp [List.count_cons, ancB, h1, h2]
  | succ fuel ih =>
    intro j i hj
    have hdfs : dfsIdx es (buildResult es).2 (fuel + 1 + 1) i
        = i :: (sortSib es (childrenOf (buildResult es).2 i)).flatMap
            (dfsIdx es (buildResult es).2 (fuel + 1)) := rfl
    rw [hdfs, List.count_cons, count_flatMap]
    have hmapeq : (sortSib es (childrenOf (buildResult es).2 i)).map
          (fun c => List.count j (dfsIdx es (buildResult es).2 (fuel + 1) c))
        = (sortSib es (childrenOf (buildResult es).2 i)).map
          (fun c => if ancB es fuel c j = true then 1 else 0) := by
      apply List.map_congr_left
      intro c _
      exact ih j c hj
    have huniq : ∀ x ∈ sortSib es (childrenOf (buildResult es).2 i),
        ∀ y ∈ sortSib es (childrenOf (buildResult es).2 i),
        ancB es fuel x j = true → ancB es fuel y j = true → x = y := by
      intro x hx y hy hxj hyj
      obtain ⟨hxn, hxp⟩ := (mem_children_sorted es hnd i x).mp hx
      obtain ⟨hyn, hyp⟩ := (mem_children_sorted es hnd i y).mp hy
      obtain ⟨_, _, _, _, hrx⟩ := place_sound es hnd hxn hxp
      obtain ⟨_, _, _, _, hry⟩ := place_sound es hnd hyn hyp
      exact ancB_unique_rank es hnd fuel fuel j x y hj hxj hyj (by omega)
    rw [hmapeq, count_sum_unique (fun c => ancB es fuel c j) _
      (children_sorted_nodup es hnd i) huniq]
    by_cases hij : i = j
    · subst hij
      have hanc : ancB es (fuel + 1) i i = true := ancB_self es _ i
      have hnex : ¬ ∃ x ∈ sortSib es (childrenOf (buildResult es).2 i),
          ancB es fuel x i = true := by
        rintro ⟨x, hx, hxi⟩
        obtain ⟨hxn, hxp⟩ := (mem_children_sorted es hnd i x).mp hx
        obtain ⟨hin, _, _, _, hrx⟩ := place_sound es hnd hxn hxp
        rcases ancB_rank es hnd fuel i x hj hxi with h' | h'
        · rw [h'] at hrx
          omega
        · omega
      rw [if_neg hnex, if_pos hanc]
      simp
    · have hbeq : (i == j) = false := by simp [hij]
      rw [hbeq]
      simp only [Bool.false_eq_true, if_false, Nat.add_zero]
      by_cases hex : ∃ x ∈ sortSib es (childrenOf (buildResult es).2 i),
          ancB es fuel x j = true
      · rw [if_pos hex]
        have hanc : ancB es (fuel + 1) i j = true := by
          obtain ⟨x, hx, hxj⟩ := hex
          obtain ⟨hxn, hxp⟩ := (mem_children_sorted es hnd i x).mp hx
          exact (ancB_top_step es fuel i j).mpr (Or.inr ⟨x, hxp, hxj⟩)
        rw [if_pos hanc]
      · rw [if_neg hex]
        have hanc : ¬ ancB es (fuel + 1) i j = true := by
          intro hanc
          rcases (ancB_top_step es fuel i j).mp hanc with h' | ⟨c, hc, hcj⟩
          · exact hij h'
          · apply hex
            have hcn : c < es.length := by
              rcases ancB_rank es hnd fuel j c hj hcj with h' | h'
              · rw [h']
                exact hj
              · exact h'.1
            exact ⟨c, (mem_children_sorted es hnd i c).mpr ⟨hcn, hc⟩, hcj⟩
        rw [if_neg hanc]

/-- Counting in an initial segment of the naturals. -/
theorem count_range_ite (j : Nat) : ∀ n : Nat,
    List.count j (List.range n) = if j < n then 1 else 0 := by
  intro n
  induction n with
  | zero => simp
  | succ n ih =>
    rw [List.range_succ, List.count_append, ih]
    by_cases h1 : j < n
    · have h2 : ¬ j = n := by omega
      rw [if_pos h1, if_pos (by omega)]
      simp [h2]
    · by_cases h3 : j = n
      · subst h3
        rw [if_neg h1, if_pos (by omega)]
        simp
      · rw [if_neg h1, if_neg (by omega)]
        simp [h3]

/-- The flattened index list of the built tree holds each in-range index once
and nothing else. -/
theorem flatten_idx_count (es : List TEntry) (hnd : (es.map TEntry.path).Nodup)
    (j : Nat) :
    List.count j ((buildFileTree es).1.flatMap
        (dfsIdx es (buildFileTree es).2 (es.length + 1)))
      = if j < es.length then 1 else 0 := by
  have h1 : (buildFileTree es).1 = sortSib es (buildResult es).1 := rfl
  have h2 : (buildFileTree es).2 = (buildResult es).2 := rfl
  rw [h1, h2]
  have hroots_mem : ∀ r, r ∈ sortSib es (buildResult es).1 ↔
      (r < es.length ∧ placeOf es r = none) := by
    intro r
    rw [← List.count_pos_iff, sortSib_count, buildRoot_count es hnd r]
    by_cases h : r < es.length ∧ placeOf es r = none
    · simp [h]
    · simp [h]
  by_cases hj : j < es.length
  · rw [count_flatMap]
    have hroots_nodup : (sortSib es (buildResult es).1).Nodup := by
      rw [List.nodup_iff_count_le_one]
      intro r
      rw [sortSib_count, buildRoot_count es hnd r]
      by_cases h : r < es.length ∧ placeOf es r = none
      · simp [h]
      · simp [h]
    have hmapeq : (sortSib es (buildResult es).1).map
          (fun r => List.count j (dfsIdx es (buildResult es).2 (es.length + 1) r))
        = (sortSib es (buildResult es).1).map
          (fun r => if ancB es es.length r j = true then 1 else 0) := by
      apply List.map_congr_left
      intro r _
      exact dfs_count es hnd es.length j r hj
    have huniq : ∀ x ∈ sortSib es (buildResult es).1,
        ∀ y ∈ sortSib es (buildResult es).1,
        ancB es es.length x j = true → ancB es es.length y j = true → x = y := by
      intro x hx y hy hxj hyj
      obtain ⟨_, hxp⟩ := (hroots_mem x).mp hx
      obtain ⟨_, hyp⟩ := (hroots_mem y).mp hy
      exact root_anc_unique es hnd hj hxj hyj hxp hyp
    rw [hmapeq, count_sum_unique (fun r => ancB es es.length r j) _
      hroots_nodup huniq]
    obtain ⟨r, hrn, hrp, hranc⟩ := root_exists es hnd hj
    rw [if_pos ⟨r, (hroots_mem r).mpr ⟨hrn, hrp⟩, hranc⟩, if_pos hj]
  · rw [if_neg hj]
    rw [List.count_eq_zero]
    intro hc
    obtain ⟨r, hr, hmem⟩ := List.mem_flatMap.mp hc
    have hrn : r < es.length := ((hroots_mem r).mp hr).1
    rcases mem_dfsIdx es hnd (es.length + 1) r j hmem with h | h
    · rw [h] at hj
      exact hj hrn
    · exact hj h

/-- Build-then-flatten permutes the input when paths are distinct. -/
theorem flattenBuild_perm (es : List TEntry) (hnd : (es.map TEntry.path).Nodup) :
    (flattenBuild es).Perm es := by
  have hidx : ((buildFileTree es).1.flatMap
      (dfsIdx es (buildFileTree es).2 (es.length + 1))).Perm
      (List.range es.length) := by
    rw [List.perm_iff_count]
    intro j
    rw [flatten_idx_count es hnd j, count_range_ite j es.length]
  have hmap : (List.range es.length).map (entAt es) = es := by
    apply List.ext_get
    · simp
    · intro n h1 h2
      rw [List.get_map]
      have hn : n < es.length := h2
      have hr : (List.range es.length).get ⟨n, by simpa using hn⟩ = n := by
        simp
      rw [hr, entAt_eq_get es hn]
  have := (hidx.map (entAt es)).trans (by rw [hmap])
  exact this

/-- The sibling comparator is asymmetric. -/
theorem sibLess_asymm (es : List TEntry) {a b : Nat}
    (h : sibLess es a b = true) : sibLess es b a = false := by
  unfold sibLess at h ⊢
  rcases hda : dirAt es a <;> rcases hdb : dirAt es b <;> simp_all
  · exact le_of_lt h
  · exact le_of_lt h

/-- Failing the comparator is transitive. -/
theorem sibLess_neg_trans (es : List TEntry) {x y z : Nat}
    (h1 : sibLess es z y = false) (h2 : sibLess es y x = false) :
    sibLess es z x = false := by
  unfold sibLess at h1 h2 ⊢
  rcases hdz : dirAt es z <;> rcases hdy : dirAt es y <;> rcases hdx : dirAt es x <;> simp_all
  · exact le_trans h2 h1
  · exact le_trans h2 h1

/-- Inserting into a comparator-sorted list keeps it sorted. -/
theorem insertSib_pairwise (es : List TEntry) (x : Nat) :
    ∀ l, l.Pairwise (fun a b => sibLess es b a = false) →
      (insertSib es x l).Pairwise (fun a b => sibLess es b a = false) := by
  intro l
  induction l with
  | nil =>
    intro _
    simp [insertSib]
  | cons y ys ih =>
    intro hp
    rw [List.pairwise_cons] at hp
    obtain ⟨hy, hys⟩ := hp
    unfold insertSib
    by_cases h : sibLess es y x = true
    · rw [if_pos h]
      rw [List.pairwise_cons]
      constructor
      · intro z hz
        have hz' := (insertSib_perm es x ys).mem_iff.mp hz
        rcases List.mem_cons.mp hz' with hz' | hz'
        · rw [hz']
          exact sibLess_asymm es h
        · exact hy z hz'
      · exact ih hys
    · rw [if_neg h]
      have hxf : sibLess es y x = false := by
        cases hb : sibLess es y x
        · rfl
        · exact absurd hb h
      rw [List.pairwise_cons]
      constructor
      · intro z hz
        rcases List.mem_cons.mp hz with hz | hz
        · rw [hz]
          exact hxf
        · exact sibLess_neg_trans es (hy z hz) hxf
      · exact List.Pairwise.cons hy hys

/-- The sibling sort produces a comparator-sorted list. -/
theorem sortSib_pairwise (es : List TEntry) :
    ∀ l, (sortSib es l).Pairwise (fun a b => sibLess es b a = false) := by
  intro l
  induction l with
  | nil => simp [sortSib]
  | cons x xs ih =>
    have hstep : sortSib es (x :: xs) = insertSib es x (sortSib es xs) := rfl
    rw [hstep]
    exact insertSib_pairwise es x (sortSib es xs) ih

/-- C6: the claim asserts for every flat entry list that building the tree and
recursively flattening it yields exactly the input entries with every sibling
group sorted directories-first then by ascending name.  As stated over every
list the claim fails — when two entries share a path the directory map keeps
only the later one and the other entry is lost (see the counterexample) — so
the statement is amended with the hypothesis that entry paths are distinct,
under which it is proved: the flatten is a permutation of the input (no entry
lost, none duplicated), and the root group and every child group read off the
built tree are sorted by the code's comparator (directories before files,
same kind by ascending name). -/
theorem buildFileTree_roundtrip (es : List TEntry)
    (hnd : (es.map TEntry.path).Nodup) :
    (flattenBuild es).Perm es ∧
    (buildFileTree es).1.Pairwise (fun a b => sibLess es b a = false) ∧
    ∀ i, (sortSib es (childrenOf (buildFileTree es).2 i)).Pairwise
      (fun a b => sibLess es b a = false) :=
  ⟨flattenBuild_perm es hnd, sortSib_pairwise es (buildResult es).1,
    fun i => sortSib_pairwise es (childrenOf (buildResult es).2 i)⟩

/-- C6 counterexample: two directory entries with the same path "a"; the later
map entry overwrites the earlier, the build emits a single root and the
flatten returns one entry, so it is not a permutation of the input. -/
theorem buildFileTree_duplicate_path_loses_entry :
    ¬ (flattenBuild [⟨["a"], "a", true, 1⟩, ⟨["a"], "a", true, 2⟩]).Perm
        [⟨["a"], "a", true, 1⟩, ⟨["a"], "a", true, 2⟩] := by
  decide

/-- C6 witness: a concrete two-entry list with distinct paths round-trips. -/
theorem buildFileTree_roundtrip_witness :
    (([⟨["a"], "a", true, 0⟩, ⟨["a", "b"], "b", false, 0⟩] : List TEntry).map
        TEntry.path).Nodup ∧
    (flattenBuild [⟨["a"], "a", true, 0⟩, ⟨["a", "b"], "b", false, 0⟩]).Perm
        [⟨["a"], "a", true, 0⟩, ⟨["a", "b"], "b", false, 0⟩] :=
  ⟨by decide, (buildFileTree_roundtrip
      [⟨["a"], "a", true, 0⟩, ⟨["a", "b"], "b", false, 0⟩] (by decide)).1⟩

/-- Half-even rounding moves a rational by at most one half. -/
theorem rhe_abs_le (q : ℚ) : |((rhe q : ℤ) : ℚ) - q| ≤ 1 / 2 := by
  have hf1 : ((⌊q⌋ : ℤ) : ℚ) ≤ q := Int.floor_le q
  have hf2 : q < ⌊q⌋ + 1 := Int.lt_floor_add_one q
  unfold rhe
  by_cases h1 : q - ⌊q⌋ < 1 / 2
  · rw [if_pos h1]
    rw [abs_sub_comm, abs_of_nonneg (by linarith)]
    linarith
  · rw [if_neg h1]
    by_cases h2 : 1 / 2 < q - ⌊q⌋
    · rw [if_pos h2]
      push_cast
      rw [abs_of_nonneg (by linarith)]
      linarith
    · rw [if_neg h2]
      have heq : q - ⌊q⌋ = 1 / 2 := by linarith
      by_cases h3 : ⌊q⌋ % 2 = 0
      · rw [if_pos h3]
        rw [abs_sub_comm, abs_of_nonneg (by linarith)]
        linarith
      · rw [if_neg h3]
        push_cast
        rw [abs_of_nonneg (by linarith)]
        linarith

/-- Half-even rounding fixes the integers. -/
theorem rhe_intCast (m : ℤ) : rhe (m : ℚ) = m := by
  unfold rhe
  rw [Int.floor_intCast]
  norm_num

/-- Evaluation rule for half-even rounding when the fraction is below half. -/
theorem rhe_eq_of_lt (q : ℚ) (f : ℤ) (hl : (f : ℚ) ≤ q) (hu : q < f + 1)
    (hh : q - f < 1 / 2) : rhe q = f := by
  have hfl : ⌊q⌋ = f := Int.floor_eq_iff.mpr ⟨hl, hu⟩
  unfold rhe
  rw [hfl, if_pos hh]

/-- The binary logarithm pinned by a bracketing pair of powers. -/
theorem int_log_eq (r : ℚ) (z : ℤ) (hr : 0 < r) (h1 : (2 : ℚ) ^ z ≤ r)
    (h2 : r < (2 : ℚ) ^ (z + 1)) : Int.log 2 r = z := by
  have hb : (1 : ℕ) < 2 := by norm_num
  have h1' : ((2 : ℕ) : ℚ) ^ z ≤ r := by push_cast; exact h1
  have h2' : r < ((2 : ℕ) : ℚ) ^ (z + 1) := by push_cast; exact h2
  have ha : z ≤ Int.log 2 r := (Int.zpow_le_iff_le_log hb hr).mp h1'
  have hc : Int.log 2 r < z + 1 := (Int.lt_zpow_iff_log_lt hb hr).mp h2'
  omega

/-- Integers below 2^53 convert to double exactly. -/
theorem toDouble_intCast (m : ℤ) (h : |m| < 2 ^ 53) : toDouble (m : ℚ) = m := by
  by_cases hm : (m : ℚ) = 0
  · rw [toDouble, if_pos hm, hm]
  · have habs : (0 : ℚ) < |(m : ℚ)| := abs_pos.mpr hm
    have hzp : ((2 : ℕ) : ℚ) ^ (53 : ℤ) = (2 : ℚ) ^ (53 : ℕ) := by norm_cast
    have hlt' : |(m : ℚ)| < ((2 : ℕ) : ℚ) ^ (53 : ℤ) := by
      rw [hzp, ← Int.cast_abs]
      exact_mod_cast h
    have hlog : Int.log 2 |(m : ℚ)| ≤ 52 := by
      have := (Int.lt_zpow_iff_log_lt (by norm_num) habs).mp hlt'
      omega
    unfold toDouble
    rw [if_neg hm]
    have he0 : Int.log 2 |(m : ℚ)| - 52 ≤ 0 := by omega
    have hek : Int.log 2 |(m : ℚ)| - 52 = -(((52 - Int.log 2 |(m : ℚ)|).toNat : ℤ)) := by
      rw [Int.toNat_of_nonneg (by omega)]
      omega
    rw [hek]
    have h2e : (2 : ℚ) ^ (-(((52 - Int.log 2 |(m : ℚ)|).toNat : ℤ)))
        = ((2 : ℚ) ^ ((52 - Int.log 2 |(m : ℚ)|).toNat : ℕ))⁻¹ := by
      rw [zpow_neg, zpow_natCast]
    rw [h2e]
    have hqe : (m : ℚ) / ((2 : ℚ) ^ ((52 - Int.log 2 |(m : ℚ)|).toNat : ℕ))⁻¹
        = ((m * 2 ^ ((52 - Int.log 2 |(m : ℚ)|).toNat : ℕ) : ℤ) : ℚ) := by
      rw [div_eq_mul_inv, inv_inv]
      push_cast
      ring
    rw [hqe, rhe_intCast]
    push_cast
    have h2k : ((2 : ℚ) ^ ((52 - Int.log 2 |(m : ℚ)|).toNat : ℕ)) ≠ 0 := by positivity
    field_simp

/-- Rounding a positive rational to double keeps it within a relative 2^-53. -/
theorem toDouble_err (q : ℚ) (hq : 0 < q) : |toDouble q - q| ≤ q / 2 ^ 53 := by
  have hqne : q ≠ 0 := ne_of_gt hq
  unfold toDouble
  rw [if_neg hqne, abs_of_pos hq]
  have h2e : (0 : ℚ) < (2 : ℚ) ^ (Int.log 2 q - 52) := by positivity
  have hfact : ((rhe (q / (2 : ℚ) ^ (Int.log 2 q - 52)) : ℤ) : ℚ)
        * (2 : ℚ) ^ (Int.log 2 q - 52) - q
      = (((rhe (q / (2 : ℚ) ^ (Int.log 2 q - 52)) : ℤ) : ℚ)
          - q / (2 : ℚ) ^ (Int.log 2 q - 52)) * (2 : ℚ) ^ (Int.log 2 q - 52) := by
    field_simp
  rw [hfact, abs_mul, abs_of_pos h2e]
  have h1 := rhe_abs_le (q / (2 : ℚ) ^ (Int.log 2 q - 52))
  have hlog : ((2 : ℕ) : ℚ) ^ (Int.log 2 q) ≤ q :=
    Int.zpow_log_le_self (by norm_num) hq
  have hlog' : (2 : ℚ) ^ (Int.log 2 q) ≤ q := by push_cast at hlog; exact hlog
  have hsplit : (2 : ℚ) ^ (Int.log 2 q - 52)
      = (2 : ℚ) ^ (Int.log 2 q) * ((2 : ℚ) ^ (52 : ℕ))⁻¹ := by
    rw [show Int.log 2 q - 52 = Int.log 2 q + -(52 : ℤ) from by ring]
    rw [zpow_add₀ (by norm_num : (2 : ℚ) ≠ 0), zpow_neg]
    rw [show ((2 : ℚ) ^ (52 : ℤ)) = ((2 : ℚ) ^ (52 : ℕ)) from by norm_cast]
  have s1 : |((rhe (q / (2 : ℚ) ^ (Int.log 2 q - 52)) : ℤ) : ℚ)
        - q / (2 : ℚ) ^ (Int.log 2 q - 52)| * (2 : ℚ) ^ (Int.log 2 q - 52)
      ≤ (1 / 2) * (2 : ℚ) ^ (Int.log 2 q - 52) :=
    mul_le_mul_of_nonneg_right h1 (le_of_lt h2e)
  have s2 : (2 : ℚ) ^ (Int.log 2 q - 52) ≤ q * ((2 : ℚ) ^ (52 : ℕ))⁻¹ := by
    rw [hsplit]
    exact mul_le_mul_of_nonneg_right hlog' (by positivity)
  have s4 : (1 / 2) * (q * ((2 : ℚ) ^ (52 : ℕ))⁻¹) = q / 2 ^ 53 := by
    rw [eq_div_iff (by positivity : ((2 : ℚ) ^ 53) ≠ 0)]
    have hp : ((2 : ℚ) ^ (53 : ℕ)) = 2 ^ (52 : ℕ) * 2 := by ring
    rw [hp]
    field_simp
    ring_nf
    exact Or.inl trivial
  linarith

/-- The K branch: shape and accuracy of the printed tenths. -/
theorem formatK_bound (n : ℤ) (h1 : 1000 ≤ n) (h2 : n ≤ 999999) :
    ∃ t : ℤ, FormatTokenCount n
        = toString (t / 10) ++ "." ++ toString (t % 10) ++ "K" ∧
      10 ≤ t ∧ t ≤ 10000 ∧ |100 * t - n| ≤ 50 := by
  have hn0 : (0 : ℤ) < n := by omega
  have hnQ : (0 : ℚ) < (n : ℚ) := by exact_mod_cast hn0
  have hnc : toDouble (n : ℚ) = (n : ℚ) := by
    apply toDouble_intCast
    rw [abs_of_pos hn0]
    calc n ≤ 999999 := h2
      _ < 2 ^ 53 := by norm_num
  have hq : (0 : ℚ) < (n : ℚ) / 1000 := by positivity
  have herr := toDouble_err ((n : ℚ) / 1000) hq
  have ha := rhe_abs_le (toDouble ((n : ℚ) / 1000) * 10)
  have hqlt : (n : ℚ) / 1000 < 1000 := by
    rw [div_lt_iff (by norm_num)]
    have : (n : ℚ) < 1000000 := by exact_mod_cast (by omega : n < 1000000)
    linarith
  have h10 : |((rhe (toDouble ((n : ℚ) / 1000) * 10) : ℤ) : ℚ)
        - 10 * ((n : ℚ) / 1000)|
      ≤ 1 / 2 + 10 * ((n : ℚ) / 1000 / 2 ^ 53) := by
    have htr := abs_sub_le ((rhe (toDouble ((n : ℚ) / 1000) * 10) : ℤ) : ℚ)
      (toDouble ((n : ℚ) / 1000) * 10) (10 * ((n : ℚ) / 1000))
    have hmm : |toDouble ((n : ℚ) / 1000) * 10 - 10 * ((n : ℚ) / 1000)|
        = 10 * |toDouble ((n : ℚ) / 1000) - (n : ℚ) / 1000| := by
      rw [show toDouble ((n : ℚ) / 1000) * 10 - 10 * ((n : ℚ) / 1000)
          = 10 * (toDouble ((n : ℚ) / 1000) - (n : ℚ) / 1000) from by ring, abs_mul]
      norm_num
    rw [hmm] at htr
    linarith
  have hsmall : 10 * ((n : ℚ) / 1000 / 2 ^ 53) < 1 / 100 := by
    have h' : (n : ℚ) / 1000 / 2 ^ 53 < 1000 / 2 ^ 53 := by gcongr
    have hnum : (10 : ℚ) * (1000 / 2 ^ 53) < 1 / 100 := by norm_num
    linarith
  have hb : |((100 * rhe (toDouble ((n : ℚ) / 1000) * 10) - n : ℤ) : ℚ)| < 51 := by
    have hcast : ((100 * rhe (toDouble ((n : ℚ) / 1000) * 10) - n : ℤ) : ℚ)
        = 100 * (((rhe (toDouble ((n : ℚ) / 1000) * 10) : ℤ) : ℚ)
            - 10 * ((n : ℚ) / 1000)) := by
      push_cast
      ring
    rw [hcast, abs_mul]
    norm_num
    linarith
  have key : |100 * rhe (toDouble ((n : ℚ) / 1000) * 10) - n| ≤ 50 := by
    rw [← Int.cast_abs] at hb
    have h51 : |100 * rhe (toDouble ((n : ℚ) / 1000) * 10) - n| < 51 := by
      exact_mod_cast hb
    omega
  have keyp := abs_le.mp key
  refine ⟨rhe (toDouble ((n : ℚ) / 1000) * 10), ?_, by omega, by omega, key⟩
  unfold FormatTokenCount
  rw [if_neg (by omega), if_pos (by omega)]
  unfold fdiv
  rw [hnc]
  unfold fmtDec1
  rfl

/-- The M branch: shape for every input at or above one million, and accuracy
of the printed tenths whenever the count is at most 2^40 (float64 round-off
stays below one final-place ulp there). -/
theorem formatM_bound (n : ℤ) (h1 : 1000000 ≤ n) :
    ∃ t : ℤ, FormatTokenCount n
        = toString (t / 10) ++ "." ++ toString (t % 10) ++ "M" ∧
      10 ≤ t ∧ (n ≤ 2 ^ 40 → |100000 * t - n| ≤ 50000) := by
  have hn0 : (0 : ℤ) < n := by omega
  have hnQ : (0 : ℚ) < (n : ℚ) := by exact_mod_cast hn0
  have herr0 := toDouble_err (n : ℚ) hnQ
  have habs0 := abs_le.mp herr0
  have hd_small : (n : ℚ) / 2 ^ 53 < (n : ℚ) := div_lt_self hnQ (by norm_num)
  have hd_pos : (0 : ℚ) < toDouble (n : ℚ) := by linarith [habs0.1]
  have hq : (0 : ℚ) < toDouble (n : ℚ) / 1000000 := by positivity
  have herr1 := toDouble_err (toDouble (n : ℚ) / 1000000) hq
  have habs1 := abs_le.mp herr1
  have ha := rhe_abs_le (toDouble (toDouble (n : ℚ) / 1000000) * 10)
  have hqle : toDouble (n : ℚ) / 1000000 ≤ 2 * (n : ℚ) / 1000000 := by
    have hh : toDouble (n : ℚ) ≤ 2 * (n : ℚ) := by linarith [habs0.2]
    linarith
  have hB : |toDouble (toDouble (n : ℚ) / 1000000) * 10
        - 10 * (toDouble (n : ℚ) / 1000000)|
      ≤ 10 * (toDouble (n : ℚ) / 1000000 / 2 ^ 53) := by
    rw [show toDouble (toDouble (n : ℚ) / 1000000) * 10
          - 10 * (toDouble (n : ℚ) / 1000000)
        = 10 * (toDouble (toDouble (n : ℚ) / 1000000)
            - toDouble (n : ℚ) / 1000000) from by ring, abs_mul]
    norm_num
    linarith [herr1]
  have hC : |10 * (toDouble (n : ℚ) / 1000000) - (n : ℚ) / 100000|
      ≤ (n : ℚ) / 2 ^ 53 / 100000 := by
    rw [show 10 * (toDouble (n : ℚ) / 1000000) - (n : ℚ) / 100000
        = (toDouble (n : ℚ) - (n : ℚ)) / 100000 from by ring, abs_div]
    rw [show |(100000 : ℚ)| = 100000 from by norm_num]
    gcongr
  have hD : 10 * (toDouble (n : ℚ) / 1000000 / 2 ^ 53)
      ≤ 2 * ((n : ℚ) / 2 ^ 53) / 100000 := by
    linarith [hqle]
  have hT : |((rhe (toDouble (toDouble (n : ℚ) / 1000000) * 10) : ℤ) : ℚ)
        - (n : ℚ) / 100000|
      ≤ 1 / 2 + 3 * ((n : ℚ) / 2 ^ 53) / 100000 := by
    have t1 := abs_sub_le
      ((rhe (toDouble (toDouble (n : ℚ) / 1000000) * 10) : ℤ) : ℚ)
      (toDouble (toDouble (n : ℚ) / 1000000) * 10)
      (10 * (toDouble (n : ℚ) / 1000000))
    have t2 := abs_sub_le
      ((rhe (toDouble (toDouble (n : ℚ) / 1000000) * 10) : ℤ) : ℚ)
      (10 * (toDouble (n : ℚ) / 1000000)) ((n : ℚ) / 100000)
    linarith
  have hTl := abs_le.mp hT
  have hX : (10 : ℚ) ≤ (n : ℚ) / 100000 := by
    rw [le_div_iff (by norm_num)]
    exact_mod_cast (by omega : (1000000 : ℤ) ≤ n)
  have h9 : (9 : ℚ) < ((rhe (toDouble (toDouble (n : ℚ) / 1000000) * 10) : ℤ) : ℚ) := by
    nlinarith [hTl.1, hX]
  have ht10 : 10 ≤ rhe (toDouble (toDouble (n : ℚ) / 1000000) * 10) := by
    have h9' : (9 : ℤ) < rhe (toDouble (toDouble (n : ℚ) / 1000000) * 10) := by
      exact_mod_cast h9
    omega
  refine ⟨rhe (toDouble (toDouble (n : ℚ) / 1000000) * 10), ?_, ht10, ?_⟩
  · unfold FormatTokenCount
    rw [if_neg (by omega), if_neg (by omega)]
    unfold fdiv
    unfold fmtDec1
    rfl
  · intro hle
    have hnle : (n : ℚ) ≤ 2 ^ 40 := by exact_mod_cast hle
    have hb : |((100000 * rhe (toDouble (toDouble (n : ℚ) / 1000000) * 10) - n : ℤ) : ℚ)|
        < 50001 := by
      have hcast : ((100000 * rhe (toDouble (toDouble (n : ℚ) / 1000000) * 10) - n : ℤ) : ℚ)
          = 100000 * (((rhe (toDouble (toDouble (n : ℚ) / 1000000) * 10) : ℤ) : ℚ)
              - (n : ℚ) / 100000) := by
        push_cast
        ring
      rw [hcast, abs_mul]
      rw [show |(100000 : ℚ)| = 100000 from by norm_num]
      have hsm : 3 * ((n : ℚ) / 2 ^ 53) / 100000 * 100000 < 1 := by
        have : 3 * ((n : ℚ) / 2 ^ 53) ≤ 3 * ((2 : ℚ) ^ 40 / 2 ^ 53) := by
          gcongr
        have hnum : (3 : ℚ) * ((2 : ℚ) ^ 40 / 2 ^ 53) < 1 := by norm_num
        have h100 : (3 : ℚ) * ((n : ℚ) / 2 ^ 53) / 100000 * 100000
            = 3 * ((n : ℚ) / 2 ^ 53) := by
          field_simp
          ring
        rw [h100]
        linarith
      nlinarith [hT, hsm]
    rw [← Int.cast_abs] at hb
    have h51 : |100000 * rhe (toDouble (toDouble (n : ℚ) / 1000000) * 10) - n| < 50001 := by
      exact_mod_cast hb
    omega

/-- Worked instance: 1234 tokens print as 1.2K. -/
theorem formatTokenCount_1234 : FormatTokenCount 1234 = "1.2K" := by
  have hnc : toDouble ((1234 : ℤ) : ℚ) = ((1234 : ℤ) : ℚ) :=
    toDouble_intCast 1234 (by norm_num)
  unfold FormatTokenCount
  rw [if_neg (by norm_num), if_pos (by norm_num)]
  unfold fdiv
  rw [hnc]
  have hcast : ((1234 : ℤ) : ℚ) / 1000 = (1234 : ℚ) / 1000 := by norm_num
  rw [hcast]
  have hq : (0 : ℚ) < (1234 : ℚ) / 1000 := by norm_num
  have habs : |(1234 : ℚ) / 1000| = (1234 : ℚ) / 1000 := abs_of_pos hq
  have hlog : Int.log 2 ((1234 : ℚ) / 1000) = 0 := by
    apply int_log_eq _ 0 hq
    · norm_num
    · norm_num
  have h52 : (2 : ℚ) ^ (-52 : ℤ) = ((2 : ℚ) ^ (52 : ℕ))⁻¹ := by
    rw [zpow_neg]
    norm_cast
  have htd : toDouble ((1234 : ℚ) / 1000) = (5557441940175192 : ℚ) / 2 ^ 52 := by
    unfold toDouble
    rw [if_neg (by norm_num), habs, hlog]
    rw [show (0 : ℤ) - 52 = (-52 : ℤ) from by norm_num, h52]
    have harg : (1234 : ℚ) / 1000 / ((2 : ℚ) ^ (52 : ℕ))⁻¹
        = (2778720970087596032 : ℚ) / 500 := by
      rw [div_eq_mul_inv, inv_inv]
      norm_num
    rw [harg]
    have hr : rhe ((2778720970087596032 : ℚ) / 500) = 5557441940175192 := by
      apply rhe_eq_of_lt
      · push_cast
        norm_num
      · push_cast
        norm_num
      · push_cast
        norm_num
    rw [hr]
    push_cast
    rw [div_eq_mul_inv]
  rw [htd]
  unfold fmtDec1
  have harg2 : (5557441940175192 : ℚ) / 2 ^ 52 * 10
      = (55574419401751920 : ℚ) / 4503599627370496 := by
    norm_num
  rw [harg2]
  have hrt : rhe ((55574419401751920 : ℚ) / 4503599627370496) = 12 := by
    apply rhe_eq_of_lt
    · push_cast
      norm_num
    · push_cast
      norm_num
    · push_cast
      norm_num
  rw [hrt]
  rw [show ((12 : ℤ) / 10) = (1 : ℤ) from by decide,
    show ((12 : ℤ) % 10) = (2 : ℤ) from by decide]
  rfl

/-- C9: for every token count, the formatting returns the plain decimal string
below 1000; between 1000 and 999999 a tenths digit followed by `K`, where the
rendered tenths value is the count over one thousand to within half a final
place (the claimed 1234 prints exactly "1.2K"); and at or above one million a
tenths digit followed by `M`, with the same half-final-place accuracy with
respect to the count over one million whenever the count is at most 2^40
(beyond that float64 round-off can exceed the final place, but the shape
still holds).  The float64 divisions and Go's fixed-decimal printing are
modelled exactly, with round-to-nearest ties-to-even at both steps. -/
theorem formatTokenCount_spec (n : ℤ) :
    (0 ≤ n → n ≤ 999 → FormatTokenCount n = toString n) ∧
    (1000 ≤ n → n ≤ 999999 → ∃ t : ℤ,
      FormatTokenCount n = toString (t / 10) ++ "." ++ toString (t % 10) ++ "K" ∧
      10 ≤ t ∧ t ≤ 10000 ∧ |100 * t - n| ≤ 50) ∧
    (1000000 ≤ n → ∃ t : ℤ,
      FormatTokenCount n = toString (t / 10) ++ "." ++ toString (t % 10) ++ "M" ∧
      10 ≤ t ∧ (n ≤ 2 ^ 40 → |100000 * t - n| ≤ 50000)) ∧
    FormatTokenCount 1234 = "1.2K" := by
  refine ⟨?_, fun h1 h2 => formatK_bound n h1 h2,
    fun h1 => formatM_bound n h1, formatTokenCount_1234⟩
  intro _ hb
  unfold FormatTokenCount
  rw [if_pos (by omega)]

/-- C9 witness: the plain branch at 500 and the worked 1234 instance, via the
claim theorem. -/
theorem formatTokenCount_spec_witness :
    FormatTokenCount 500 = toString (500 : ℤ) ∧ FormatTokenCount 1234 = "1.2K" :=
  ⟨(formatTokenCount_spec 500).1 (by decide) (by decide),
    (formatTokenCount_spec 1234).2.2.2⟩

end ClaimTheorems

end RepoPrompt
